import Mathlib

/-!
Verification of the trending-news-feed repository.

The Python sources are shallowly embedded: Python strings become `List Char`,
machine integers become `Nat`/`Int`, timestamps become `Int`, floats become
`ℝ` (for the score formula) or `ℚ` (for cursor comparisons), dictionaries
become association lists, and fallible code returns `Option`/`Except`.
SQLAlchemy sessions are modelled by explicit state passing with an
`IntegrityError` channel.
-/

namespace TNF

set_option maxHeartbeats 1000000

/-- Python strings, modelled as lists of unicode scalar values. -/
abbrev PyStr := List Char

/-- Coerce a Lean string literal into the Python-string model. -/
def pstr (s : String) : PyStr := s.data

/-- Python `str.lower()` restricted to ASCII letters (the only case the
claims exercise); `Char.toLower` maps `A`-`Z` to `a`-`z` and fixes the rest. -/
def lowerStr (s : PyStr) : PyStr := s.map Char.toLower

/-- Python `s.startswith(t)`. -/
def startswith (s t : PyStr) : Bool := t.isPrefixOf s

/-- Python `s.endswith(t)`. -/
def endswith (s t : PyStr) : Bool := t.isSuffixOf s

/-- The query normalization performed by `DomainFilter.is_allowed`
(src/src/domain_filter.py lines 79-84): lower-case, then strip a single
leading `www.`. -/
def normalize_query (q : PyStr) : PyStr :=
  let d1 := lowerStr q
  if startswith d1 (pstr ("www.")) then d1.drop 4 else d1

/-- `DomainFilter.is_allowed` from `src/domain_filter.py` (lines 66-98):
empty queries are rejected, then lower-case, strip one leading `www.`,
direct set membership, and — when subdomain matching is on —
`domain.endswith('.' + whitelisted_domain)`.
The whitelist set is modelled as a list of hosts. -/
def is_allowed (domains : List PyStr) (match_subdomains : Bool) (domain : PyStr) : Bool :=
  if domain.isEmpty then false
  else
    let d2 := normalize_query domain
    if domains.contains d2 then true
    else if match_subdomains then
      domains.any (fun w => endswith d2 ('.' :: w))
    else false

/-- The decision rule exactly as the specification words it (claim C5):
subdomain acceptance requires the query to equal `x ++ "." ++ d` for some
NON-empty `x`, i.e. a strict DNS-label suffix with a non-empty label part.
This definition follows the spec text, for comparison against `is_allowed`. -/
def claim_allows (domains : List PyStr) (match_subdomains : Bool) (domain : PyStr) : Bool :=
  let d2 := normalize_query domain
  if domains.contains d2 then true
  else if match_subdomains then
    domains.any (fun w => endswith d2 ('.' :: w) && decide (w.length + 1 < d2.length))
  else false

/-- Ranking configuration (`RankingConfig`, src/src/ranking.py lines 28-68). -/
structure RankingConfig where
  decay_rate : ℝ
  max_age_hours : ℝ
  min_share_count : ℕ
  min_repost_count : ℕ
  repost_weight : ℝ
  results_limit : ℕ
  max_posts_per_url : Option ℕ

/-- `RankingEngine.calculate_score` (src/src/ranking.py lines 148-193):
`decay_factor = exp(-decay_rate * url_age_hours)`,
`effective_repost_count = max(1, repost_count)`,
`weighted = effective ^ repost_weight`, score = `weighted * share_count * decay`.
Floats are modelled as reals; `math.pow` on the positive base is `Real.rpow`. -/
noncomputable def calculate_score (cfg : RankingConfig) (share_count : ℕ)
    (url_age_hours : ℝ) (repost_count : ℕ) : ℝ :=
  let decay_factor := Real.exp (-cfg.decay_rate * url_age_hours)
  let effective_repost_count : ℕ := max 1 repost_count
  let weighted_repost_count : ℝ := (effective_repost_count : ℝ) ^ cfg.repost_weight
  weighted_repost_count * (share_count : ℝ) * decay_factor

/-- A row of the `posts` table (src/src/database.py lines 38-57). -/
structure PostRow where
  uri : PyStr
  cid : PyStr
  author_did : PyStr
  text : Option PyStr
  created_at : Int
  indexed_at : Int
  repost_count : Nat
deriving DecidableEq

/-- A row of the `urls` table (src/src/database.py lines 63-81). -/
structure UrlRow where
  id : Nat
  url : PyStr
  domain : PyStr
  first_seen : Int
  share_count : Nat
deriving DecidableEq

/-- A row of the `post_urls` junction table (src/src/database.py lines 87-103). -/
structure LinkRow where
  post_uri : PyStr
  url_id : Nat
  shared_at : Int
deriving DecidableEq

/-- The persistent store: three tables plus the autoincrement counter. -/
structure DBState where
  posts : List PostRow
  urls : List UrlRow
  links : List LinkRow
  next_url_id : Nat
deriving DecidableEq

/-- An open SQLAlchemy session: the committed store, the in-transaction view,
and unit-of-work pending inserts that are sent to the database on flush. -/
structure Session where
  committed : DBState
  txn : DBState
  pending_posts : List PostRow
  pending_links : List LinkRow
deriving DecidableEq

/-- Flush pending Post inserts into the transaction view one by one; a
primary-key collision on `posts.uri` raises `IntegrityError` (`.error`). -/
def flushPosts : List PostRow → List PostRow → Except Unit (List PostRow)
  | table, [] => .ok table
  | table, p :: rest =>
    if table.any (fun q => q.uri == p.uri) then .error ()
    else flushPosts (table ++ [p]) rest

/-- `session.flush()` / autoflush: send pending inserts to the transaction. -/
def flushSession (s : Session) : Except Unit Session := do
  let t ← flushPosts s.txn.posts s.pending_posts
  .ok { s with
        txn := { s.txn with posts := t, links := s.txn.links ++ s.pending_links }
        pending_posts := [], pending_links := [] }

/-- `session.rollback()`: discard the whole open transaction. -/
def rollbackSession (s : Session) : Session :=
  { committed := s.committed, txn := s.committed, pending_posts := [], pending_links := [] }

/-- `session.commit()`: flush, then make the transaction durable. -/
def commitSession (s : Session) : Except Unit Session := do
  let s' ← flushSession s
  .ok { s' with committed := s'.txn }

/-- A fresh session opened by `async with self.async_session() as session`. -/
def openSession (db : DBState) : Session :=
  { committed := db, txn := db, pending_posts := [], pending_links := [] }

/-- `Database._get_or_create_url` (src/src/database.py lines 242-277): the
`SELECT` autoflushes the session (which can raise `IntegrityError` from a
pending duplicate Post), then either increments `share_count` of the existing
URL row or inserts a fresh row with `share_count = 1`; the trailing
`session.flush()` makes the id available. Returns the URL id. -/
def get_or_create_url (s : Session) (url domain : PyStr) (now : Int) :
    Except Unit (Session × Nat) := do
  let s ← flushSession s
  match s.txn.urls.find? (fun u => u.url == url) with
  | some u =>
    let urls' := s.txn.urls.map fun v =>
      if v.url == url then { v with share_count := v.share_count + 1 } else v
    .ok ({ s with txn := { s.txn with urls := urls' } }, u.id)
  | none =>
    let uid := s.txn.next_url_id
    let row : UrlRow := { id := uid, url := url, domain := domain,
                          first_seen := now, share_count := 1 }
    let txn' := { s.txn with urls := s.txn.urls ++ [row], next_url_id := uid + 1 }
    .ok ({ s with txn := txn' }, uid)

/-- The field dictionary a post carries into storage (the keys consumed by
`add_post` and by each element of `add_posts_batch`). -/
structure PostFields where
  uri : PyStr
  cid : PyStr
  author_did : PyStr
  url : PyStr
  domain : PyStr
  text : Option PyStr
  created_at : Int
deriving DecidableEq

/-- Build the pending `Post` row from the fields (`indexed_at` defaults to
the wall clock `now`). -/
def mkPostRow (f : PostFields) (now : Int) : PostRow :=
  { uri := f.uri, cid := f.cid, author_did := f.author_did, text := f.text,
    created_at := f.created_at, indexed_at := now, repost_count := 0 }

/-- `Database.add_post` (src/src/database.py lines 173-240): get-or-create
the URL (incrementing its share count), stage the Post and Link inserts,
commit; an `IntegrityError` is caught, the session is rolled back and the
call returns `False`. Returns the flag and the resulting store. -/
def add_post (db : DBState) (f : PostFields) (now : Int) : Bool × DBState :=
  let attempt : Except Unit Session := do
    let (s, uid) ← get_or_create_url (openSession db) f.url f.domain now
    let s := { s with pending_posts := s.pending_posts ++ [mkPostRow f now] }
    let s := { s with pending_links :=
                 s.pending_links ++ [({ post_uri := f.uri, url_id := uid, shared_at := now } : LinkRow)] }
    commitSession s
  match attempt with
  | .ok s' => (true, s'.committed)
  | .error _ => (false, db)

/-- The per-element loop of `Database.add_posts_batch` (src/src/database.py
lines 310-342): each element get-or-creates its URL (whose `SELECT`
autoflushes and may surface the previous element's duplicate-key
`IntegrityError`), stages the Post and Link, and bumps `added_count`; the
inner `except IntegrityError` does a full `session.rollback()` and `continue`s
with the NEXT element. -/
def batchLoop (now : Int) : Session → Nat → List PostFields → Session × Nat
  | s, count, [] => (s, count)
  | s, count, f :: rest =>
    match get_or_create_url s f.url f.domain now with
    | .error _ => batchLoop now (rollbackSession s) count rest
    | .ok (s, uid) =>
      let s := { s with pending_posts := s.pending_posts ++ [mkPostRow f now] }
      let s := { s with pending_links :=
                   s.pending_links ++ [({ post_uri := f.uri, url_id := uid, shared_at := now } : LinkRow)] }
      batchLoop now s (count + 1) rest

/-- `Database.add_posts_batch` (src/src/database.py lines 279-352): run the
per-element loop, then `session.commit()`; an `IntegrityError` raised at the
final commit is NOT caught by the inner handler, so the outer handler rolls
back and re-raises (`.error`). On success returns `added_count` and the store. -/
def add_posts_batch (db : DBState) (posts : List PostFields) (now : Int) :
    Except Unit (Nat × DBState) :=
  if posts.isEmpty then .ok (0, db)
  else
    let (s, count) := batchLoop now (openSession db) 0 posts
    match commitSession s with
    | .ok s' => .ok (count, s'.committed)
    | .error e => .error e

/-- Membership test for the deletion window of `delete_posts_in_period`:
`created_at >= start` (when given) and `created_at < end` (when given). -/
def in_window (start_date end_date : Option Int) (t : Int) : Bool :=
  (match start_date with | some s => decide (s ≤ t) | none => true)
  && (match end_date with | some e => decide (t < e) | none => true)

/-- `Database.delete_posts_in_period` (src/src/database.py lines 582-634):
with both bounds absent it logs and returns 0; otherwise it deletes the posts
whose `created_at` satisfies the given bounds, the foreign-key cascade
removes their junction rows, and the URL table is not touched. -/
def delete_posts_in_period (db : DBState) (start_date end_date : Option Int) :
    Nat × DBState :=
  if start_date.isNone && end_date.isNone then (0, db)
  else
    let deleted := db.posts.filter (fun p => in_window start_date end_date p.created_at)
    let remaining := db.posts.filter (fun p => !(in_window start_date end_date p.created_at))
    let links' := db.links.filter (fun l => !(deleted.any (fun p => p.uri == l.post_uri)))
    (deleted.length, { db with posts := remaining, links := links' })

/-- Values appearing in the flat result dictionaries of the read projections. -/
inductive PyVal where
  | vstr : PyStr → PyVal
  | vint : Int → PyVal
  | vnat : Nat → PyVal
  | vnone : PyVal
deriving DecidableEq

/-- Optional post text as a dictionary value. -/
def textVal : Option PyStr → PyVal
  | some t => .vstr t
  | none => .vnone

/-- The flat dictionary built for each row of `Database.get_recent_posts`
(src/src/database.py lines 536-550): exactly these keys, in source order. -/
def recent_post_row (post : PostRow) (url : UrlRow) (post_url : LinkRow) :
    List (PyStr × PyVal) :=
  [ (pstr ("uri"), .vstr post.uri),
    (pstr ("cid"), .vstr post.cid),
    (pstr ("author_did"), .vstr post.author_did),
    (pstr ("text"), textVal post.text),
    (pstr ("created_at"), .vint post.created_at),
    (pstr ("indexed_at"), .vint post.indexed_at),
    (pstr ("url"), .vstr url.url),
    (pstr ("domain"), .vstr url.domain),
    (pstr ("share_count"), .vnat url.share_count),
    (pstr ("shared_at"), .vint post_url.shared_at),
    (pstr ("repost_count"), .vnat post.repost_count) ]

/-- The flat dictionary built for each row of `Database.get_posts_by_domain`
(src/src/database.py lines 485-499): the same keys, in source order. -/
def domain_post_row (post : PostRow) (url : UrlRow) (post_url : LinkRow) :
    List (PyStr × PyVal) :=
  [ (pstr ("uri"), .vstr post.uri),
    (pstr ("cid"), .vstr post.cid),
    (pstr ("author_did"), .vstr post.author_did),
    (pstr ("text"), textVal post.text),
    (pstr ("created_at"), .vint post.created_at),
    (pstr ("indexed_at"), .vint post.indexed_at),
    (pstr ("url"), .vstr url.url),
    (pstr ("domain"), .vstr url.domain),
    (pstr ("share_count"), .vnat url.share_count),
    (pstr ("shared_at"), .vint post_url.shared_at),
    (pstr ("repost_count"), .vnat post.repost_count) ]

/-- Python `row[key]` on a dictionary: `none` models a raised `KeyError`. -/
def dict_get (d : List (PyStr × PyVal)) (k : PyStr) : Option PyVal :=
  (d.find? (fun kv => kv.1 == k)).map (·.2)

/-- The first step of the candidate loop in `RankingEngine.rank_posts`
(src/src/ranking.py line 307): `post["url_first_seen"]` for every fetched
row; a missing key raises `KeyError`, aborting `rank_posts`. -/
def rank_posts_first_seen (rows : List (List (PyStr × PyVal))) :
    Except PyStr (List PyVal) :=
  rows.mapM fun row =>
    match dict_get row (pstr ("url_first_seen")) with
    | some v => .ok v
    | none => .error (pstr ("KeyError: url_first_seen"))

/-- Standard UTF-8 encoding of one unicode scalar value. -/
def utf8_encode_char (c : Char) : List Nat :=
  let n := c.toNat
  if n < 128 then [n]
  else if n < 2048 then [192 + n / 64, 128 + n % 64]
  else if n < 65536 then [224 + n / 4096, 128 + n / 64 % 64, 128 + n % 64]
  else [240 + n / 262144, 128 + n / 4096 % 64, 128 + n / 64 % 64, 128 + n % 64]

/-- Python `str.encode('utf-8')`. -/
def utf8_encode : PyStr → List Nat
  | [] => []
  | c :: rest => utf8_encode_char c ++ utf8_encode rest

/-- Byte-by-byte strict UTF-8 decoding automaton. The state is the number of
continuation bytes still expected, the accumulated code point so far, and the
minimal value the finished code point must reach (the overlong check for the
chosen sequence length). Completion also rejects surrogates and values above
`0x10FFFF`. -/
def utf8_decode_go : Nat → Nat → Nat → List Nat → Option PyStr
  | 0, _, _, [] => some []
  | 0, _, _, b0 :: rest =>
    if b0 < 128 then (utf8_decode_go 0 0 0 rest).map (Char.ofNat b0 :: ·)
    else if b0 < 192 then none
    else if b0 < 224 then utf8_decode_go 1 (b0 - 192) 128 rest
    else if b0 < 240 then utf8_decode_go 2 (b0 - 224) 2048 rest
    else if b0 < 248 then utf8_decode_go 3 (b0 - 240) 65536 rest
    else none
  | _ + 1, _, _, [] => none
  | k + 1, acc, mn, b0 :: rest =>
    if 128 ≤ b0 ∧ b0 < 192 then
      if k = 0 then
        if mn ≤ acc * 64 + (b0 - 128) ∧
            ¬ (55296 ≤ acc * 64 + (b0 - 128) ∧ acc * 64 + (b0 - 128) < 57344) ∧
            acc * 64 + (b0 - 128) < 1114112 then
          (utf8_decode_go 0 0 0 rest).map (Char.ofNat (acc * 64 + (b0 - 128)) :: ·)
        else none
      else utf8_decode_go k (acc * 64 + (b0 - 128)) mn rest
    else none

/-- Strict UTF-8 decoding (Python `bytes.decode('utf-8')`); `none` models a
raised `UnicodeDecodeError`. Overlong forms, surrogates, out-of-range values,
stray continuations and truncated sequences are rejected. -/
def utf8_decode (bs : List Nat) : Option PyStr := utf8_decode_go 0 0 0 bs

/-- The base64 alphabet character for a 6-bit value. -/
def b64_char (n : Nat) : Char :=
  if n < 26 then Char.ofNat (65 + n)
  else if n < 52 then Char.ofNat (97 + (n - 26))
  else if n < 62 then Char.ofNat (48 + (n - 52))
  else if n = 62 then '+' else '/'

/-- Reverse lookup in the base64 alphabet. -/
def b64_val (c : Char) : Option Nat :=
  if 'A' ≤ c && c ≤ 'Z' then some (c.toNat - 65)
  else if 'a' ≤ c && c ≤ 'z' then some (c.toNat - 97 + 26)
  else if '0' ≤ c && c ≤ '9' then some (c.toNat - 48 + 52)
  else if c = '+' then some 62
  else if c = '/' then some 63
  else none

/-- `base64.b64encode` on a byte string: three bytes become four alphabet
characters; a final group of one or two bytes is padded with `=`. -/
def b64_encode : List Nat → List Char
  | [] => []
  | [b0] => [b64_char (b0 / 4), b64_char (b0 % 4 * 16), '=', '=']
  | [b0, b1] =>
    [b64_char (b0 / 4), b64_char (b0 % 4 * 16 + b1 / 16), b64_char (b1 % 16 * 4), '=']
  | b0 :: b1 :: b2 :: rest =>
    b64_char (b0 / 4) :: b64_char (b0 % 4 * 16 + b1 / 16) ::
      b64_char (b1 % 16 * 4 + b2 / 64) :: b64_char (b2 % 64) :: b64_encode rest

/-- Characters `binascii` keeps when decoding in non-strict mode: the
alphabet and the padding character. -/
def b64_keep (c : Char) : Bool := (b64_val c).isSome || c == '='

/-- Decode a purged base64 character stream quad by quad; `=`-padding is
only recognized in the final quad. -/
def b64_decode_quads : List Char → Option (List Nat)
  | [] => some []
  | c0 :: c1 :: c2 :: c3 :: rest =>
    match b64_val c0, b64_val c1 with
    | some v0, some v1 =>
      if rest.isEmpty && c2 == '=' && c3 == '=' then some [v0 * 4 + v1 / 16]
      else
        match b64_val c2 with
        | some v2 =>
          if rest.isEmpty && c3 == '=' then
            some [v0 * 4 + v1 / 16, v1 % 16 * 16 + v2 / 4]
          else
            match b64_val c3 with
            | some v3 =>
              (b64_decode_quads rest).map
                (fun tl => (v0 * 4 + v1 / 16) :: (v1 % 16 * 16 + v2 / 4) :: (v2 % 4 * 64 + v3) :: tl)
            | none => none
        | none => none
    | _, _ => none
  | _ => none

/-- `base64.b64decode(..., validate=False)`: characters outside the alphabet
and padding are discarded, then the length must be a multiple of four
(`binascii.Error` — modelled as `none` — otherwise). -/
def b64_decode (s : List Char) : Option (List Nat) :=
  let t := s.filter b64_keep
  if t.length % 4 == 0 then b64_decode_quads t else none

/-- Python `s.split(sep, 1)` when the separator occurs: the part before the
first occurrence and everything after it; `none` when the separator is
absent (so `split` would yield a single part). -/
def split_once (sep : PyStr) : PyStr → Option (PyStr × PyStr)
  | [] => none
  | c :: rest =>
    if sep.isPrefixOf (c :: rest) then some ([], (c :: rest).drop sep.length)
    else (split_once sep rest).map (fun p => (c :: p.1, p.2))

/-- ASCII decimal digit test. -/
def is_digit (c : Char) : Bool := '0' ≤ c && c ≤ '9'

/-- Numeric value of a digit string. -/
def digits_val (s : List Char) : Nat := s.foldl (fun a c => a * 10 + (c.toNat - 48)) 0

/-- A non-empty all-digit string. -/
def all_digits (s : List Char) : Bool := !s.isEmpty && s.all is_digit

/-- The optional exponent tail of a float literal: empty, or `e`/`E`
followed by an optionally signed non-empty digit string. -/
def exp_ok : List Char → Bool
  | [] => true
  | c :: r =>
    if c = 'e' ∨ c = 'E' then
      match r with
      | s2 :: r2 => if s2 = '+' ∨ s2 = '-' then all_digits r2 else all_digits (s2 :: r2)
      | [] => false
    else false

/-- The unsigned mantissa of a float literal: `digits [. digits]` or
`. digits`, at least one digit overall, then an optional exponent. -/
def mantissa_ok (s : List Char) : Bool :=
  match s.dropWhile is_digit with
  | c :: r2 =>
    if c = '.' then
      (!((s.takeWhile is_digit).isEmpty && (r2.takeWhile is_digit).isEmpty))
        && exp_ok (r2.dropWhile is_digit)
    else !(s.takeWhile is_digit).isEmpty && exp_ok (c :: r2)
  | [] => !(s.takeWhile is_digit).isEmpty && exp_ok []

/-- Strip one optional leading sign. -/
def strip_sign (s : PyStr) : PyStr :=
  match s with
  | c :: r => if c = '+' ∨ c = '-' then r else s
  | [] => s

/-- The sign factor of a float literal. -/
def float_sign (s : PyStr) : ℚ :=
  match s with
  | c :: _ => if c = '-' then -1 else 1
  | [] => 1

/-- The grammar of finite decimal/scientific float literals: optional sign,
then a mantissa. Python's `str` of any finite float falls in this grammar,
and Python's `float()` accepts everything in it. -/
def is_float_str (s : PyStr) : Bool := mantissa_ok (strip_sign s)

/-- Value of the optional exponent tail. -/
def exp_val : List Char → Int
  | [] => 0
  | _ :: r =>
    match r with
    | '+' :: r2 => (digits_val r2 : Int)
    | '-' :: r2 => -(digits_val r2 : Int)
    | _ => (digits_val r : Int)

/-- Value of the unsigned mantissa with its exponent. -/
def mantissa_q (s : List Char) : ℚ :=
  match s.dropWhile is_digit with
  | c :: r2 =>
    if c = '.' then
      ((digits_val (s.takeWhile is_digit) : ℚ)
          + (digits_val (r2.takeWhile is_digit) : ℚ) / (10 : ℚ) ^ (r2.takeWhile is_digit).length)
        * (10 : ℚ) ^ (exp_val (r2.dropWhile is_digit))
    else (digits_val (s.takeWhile is_digit) : ℚ) * (10 : ℚ) ^ (exp_val (c :: r2))
  | [] => (digits_val (s.takeWhile is_digit) : ℚ) * (10 : ℚ) ^ (exp_val [])

/-- Python `float(s)` on finite decimal literals, with floats modelled as
exact rationals; `none` models a raised `ValueError`. -/
def float_of_str (s : PyStr) : Option ℚ :=
  if is_float_str s then some (float_sign s * mantissa_q (strip_sign s))
  else none

/-- `RankingEngine._encode_cursor` (src/src/ranking.py lines 209-225): the
base64 of the UTF-8 bytes of `f"{score}::{uri}"`; the float `score` is
carried by its decimal representation `score_repr` (Python's `str(score)`,
which for finite floats always satisfies `is_float_str` and contains no
colon). -/
def encode_cursor (score_repr uri : PyStr) : PyStr :=
  b64_encode (utf8_encode (score_repr ++ pstr ("::") ++ uri))

/-- `RankingEngine._decode_cursor` (src/src/ranking.py lines 227-250):
base64-decode, UTF-8-decode, split once on `::`, parse the score with
`float()`; every failure raises `ValueError`, modelled as `none`. Returns
the score part (still as a string) and the URI. -/
def decode_cursor (cursor : PyStr) : Option (PyStr × PyStr) := do
  let bytes ← b64_decode cursor
  let s ← utf8_decode bytes
  let (a, b) ← split_once (pstr ("::")) s
  let _ ← float_of_str a
  some (a, b)

/-- The numeric view of `_decode_cursor` consumed by `get_feed_skeleton`. -/
def decode_cursor_q (cursor : PyStr) : Option (ℚ × PyStr) :=
  (decode_cursor cursor).bind (fun p => (float_of_str p.1).map (fun q => (q, p.2)))

/-- A ranked post as produced by `rank_posts`: its URI and its score
(floats modelled as exact rationals). -/
structure ScoredPost where
  uri : PyStr
  score : ℚ
deriving DecidableEq

/-- Python string comparison `a < b` (lexicographic by code point). -/
def pystr_lt : PyStr → PyStr → Bool
  | [], [] => false
  | [], _ :: _ => true
  | _ :: _, [] => false
  | a :: x, b :: y => a < b || (a == b && pystr_lt x y)

/-- The identity-match advance of `get_feed_skeleton` (src/src/ranking.py
lines 419-425): walk the ranked list until an item matches the cursor's URI
and score (within `1e-4`); return the items strictly after the match, or
`none` when no item matches. -/
def drop_through_cursor (cs : ℚ) (cu : PyStr) : List ScoredPost → Option (List ScoredPost)
  | [] => none
  | p :: rest =>
    if p.uri == cu && |p.score - cs| < 1 / 10000 then some rest
    else drop_through_cursor cs cu rest

/-- The wire response of the feed endpoint. -/
structure FeedResponse where
  feed : List PyStr
  cursor : Option PyStr
deriving DecidableEq

/-- `RankingEngine.get_feed_skeleton` (src/src/ranking.py lines 367-462).
`ranking` is the engine's full ranked list — `rank_posts(limit=n)` returns
its first `n` elements (line 359) — and `repr_q` stands for Python's `str`
on the score float when the next-page cursor is built (it only appears
applied to the same last item on both sides of every comparison made here).
A supplied cursor is decoded only when truthy; decode failure is logged and
treated as no cursor, but the over-read `fetch_limit` still depends on the
cursor's truthiness (`limit * 3` versus `limit + 1`). -/
def get_feed_skeleton (repr_q : ℚ → PyStr) (ranking : List ScoredPost)
    (limit : Nat) (cursor : Option PyStr) : FeedResponse :=
  let ctruthy : Bool := match cursor with | some c => !c.isEmpty | none => false
  let decoded : Option (ℚ × PyStr) :=
    match cursor with
    | some c => if c.isEmpty then none else decode_cursor_q c
    | none => none
  let fetch_limit := if ctruthy then limit * 3 else limit + 1
  let ranked := ranking.take fetch_limit
  let filtered :=
    match decoded with
    | some (cs, cu) =>
      match drop_through_cursor cs cu ranked with
      | some after => after
      | none =>
        ranked.filter fun p =>
          decide (p.score < cs)
            || (decide (|p.score - cs| < 1 / 10000) && pystr_lt cu p.uri)
    | none => ranked
  let page := filtered.take limit
  let has_more := decide (limit < filtered.length)
  let next :=
    if has_more then
      (page.getLast?).map (fun last => encode_cursor (repr_q last.score) last.uri)
    else none
  ⟨page.map (fun p => p.uri), next⟩

/-- `urllib.parse` scheme characters: letters, digits, `+`, `-`, `.`. -/
def scheme_char (c : Char) : Bool :=
  ('a' ≤ c && c ≤ 'z') || ('A' ≤ c && c ≤ 'Z') || ('0' ≤ c && c ≤ '9')
    || c == '+' || c == '-' || c == '.'

/-- ASCII letter test (`url[0].isascii() and url[0].isalpha()`). -/
def is_alpha (c : Char) : Bool := ('a' ≤ c && c ≤ 'z') || ('A' ≤ c && c ≤ 'Z')

/-- Split at the first occurrence of a character; `none` when absent. -/
def split_char (sep : Char) : PyStr → Option (PyStr × PyStr)
  | [] => none
  | c :: rest =>
    if c = sep then some ([], rest)
    else (split_char sep rest).map (fun p => (c :: p.1, p.2))

/-- Split at the last occurrence of a character; `none` when absent. -/
def split_last (sep : Char) : PyStr → Option (PyStr × PyStr)
  | [] => none
  | c :: rest =>
    match split_last sep rest with
    | some p => some (c :: p.1, p.2)
    | none => if c = sep then some ([], rest) else none

/-- `_splitnetloc`: the netloc runs until the first `/`, `?` or `#`. -/
def take_until_delims : PyStr → PyStr × PyStr
  | [] => ([], [])
  | c :: rest =>
    if c = '/' ∨ c = '?' ∨ c = '#' then ([], c :: rest)
    else
      let p := take_until_delims rest
      (c :: p.1, p.2)

/-- A scheme candidate: non-empty, ASCII-alpha first, all scheme characters. -/
def valid_scheme : PyStr → Bool
  | [] => false
  | c :: rest => is_alpha c && (c :: rest).all scheme_char

/-- The six components of `urllib.parse.urlparse`. -/
structure UrlParseResult where
  scheme : PyStr
  netloc : PyStr
  path : PyStr
  params : PyStr
  query : PyStr
  fragment : PyStr
deriving DecidableEq

/-- A character that survives `_UNSAFE_URL_BYTES_TO_REMOVE` (tab, CR, LF
are removed from URLs before splitting). -/
def keep_char (c : Char) : Bool :=
  !(c.toNat == 9 || c.toNat == 10 || c.toNat == 13)

/-- `urlsplit`'s input cleaning: strip leading C0 controls and spaces
(`_WHATWG_C0_CONTROL_OR_SPACE`), then delete every tab, CR and LF. -/
def clean_url (url : PyStr) : PyStr :=
  (url.dropWhile (fun c => c.toNat ≤ 32)).filter keep_char

/-- `urllib.parse.urlsplit` (CPython 3.11): clean the input, detach the
scheme at the first `:` when the prefix is a valid scheme (lower-casing it),
the netloc after `//` up to the first `/?#` (raising `ValueError` — modelled
as `none` — on unbalanced square brackets; the NFKC `_checknetloc` and the
bracketed-IPv6 host validation, which only reject exotic hosts, are elided),
then the fragment after the first `#` and the query after the first `?`. -/
def pyUrlsplit (url0 : PyStr) : Option UrlParseResult :=
  let url := clean_url url0
  let sp :=
    match split_char ':' url with
    | some p => if valid_scheme p.1 then (lowerStr p.1, p.2) else ([], url)
    | none => ([], url)
  let np :=
    if startswith sp.2 (pstr ("//")) then take_until_delims (sp.2.drop 2)
    else ([], sp.2)
  if (np.1.contains '[' && !(np.1.contains ']'))
      || (np.1.contains ']' && !(np.1.contains '[')) then none
  else
    let fp :=
      match split_char '#' np.2 with
      | some p => p
      | none => (np.2, [])
    let qp :=
      match split_char '?' fp.1 with
      | some p => p
      | none => (fp.1, [])
    some ⟨sp.1, np.1, qp.1, [], qp.2, fp.2⟩

/-- The netloc/fragment/query stage of `pyUrlsplit` after the scheme has
been detached: a proof-structuring restatement of the tail of `pyUrlsplit`
on an already-cleaned remainder `u2` with scheme `s0`. -/
def urlsplit_tail (s0 u2 : PyStr) : Option UrlParseResult :=
  let np :=
    if startswith u2 (pstr ("//")) then take_until_delims (u2.drop 2)
    else ([], u2)
  if (np.1.contains '[' && !(np.1.contains ']'))
      || (np.1.contains ']' && !(np.1.contains '[')) then none
  else
    let fp :=
      match split_char '#' np.2 with
      | some p => p
      | none => (np.2, [])
    let qp :=
      match split_char '?' fp.1 with
      | some p => p
      | none => (fp.1, [])
    some ⟨s0, np.1, qp.1, [], qp.2, fp.2⟩

/-- `urllib.parse._splitparams`: split the params off the first `;` at or
after the last `/` (or the first `;` overall when there is no `/`). -/
def splitparams (url : PyStr) : PyStr × PyStr :=
  match split_last '/' url with
  | some p =>
    match split_char ';' p.2 with
    | some q => (p.1 ++ '/' :: q.1, q.2)
    | none => (url, [])
  | none =>
    match split_char ';' url with
    | some q => (q.1, q.2)
    | none => (url, [])

/-- `urllib.parse.urlparse`: urlsplit plus the params split on the path. -/
def pyUrlparse (url : PyStr) : Option UrlParseResult :=
  (pyUrlsplit url).map fun r =>
    if r.path.contains ';' then
      let pp := splitparams r.path
      { r with path := pp.1, params := pp.2 }
    else r

/-- `urllib.parse.uses_netloc`: the schemes `urlunsplit` gives a `//` to
even when the netloc is empty. -/
def uses_netloc : List PyStr :=
  [pstr (""), pstr ("ftp"), pstr ("http"), pstr ("gopher"), pstr ("nntp"),
   pstr ("telnet"), pstr ("imap"), pstr ("wais"), pstr ("file"), pstr ("mms"),
   pstr ("https"), pstr ("shttp"), pstr ("snews"), pstr ("prospero"),
   pstr ("rtsp"), pstr ("rtsps"), pstr ("rtspu"), pstr ("rsync"), pstr ("svn"),
   pstr ("svn+ssh"), pstr ("sftp"), pstr ("nfs"), pstr ("git"),
   pstr ("git+ssh"), pstr ("ws"), pstr ("wss")]

/-- `urllib.parse.urlunsplit` (CPython 3.11). -/
def pyUrlunsplit (scheme netloc url query fragment : PyStr) : PyStr :=
  let u1 :=
    if netloc ≠ [] ∨
        (scheme ≠ [] ∧ uses_netloc.contains scheme ∧ ¬ startswith url (pstr ("//"))) then
      pstr ("//") ++ netloc ++
        (if url ≠ [] ∧ ¬ startswith url (pstr ("/")) then '/' :: url else url)
    else url
  let u2 := if scheme ≠ [] then scheme ++ ':' :: u1 else u1
  let u3 := if query ≠ [] then u2 ++ '?' :: query else u2
  if fragment ≠ [] then u3 ++ '#' :: fragment else u3

/-- `urllib.parse.urlunparse`: re-attach the params to the path, then
urlunsplit. -/
def pyUrlunparse (scheme netloc url params query fragment : PyStr) : PyStr :=
  pyUrlunsplit scheme netloc (if params ≠ [] then url ++ ';' :: params else url)
    query fragment

/-- The bytes `urllib.parse.quote` never percent-encodes (`_ALWAYS_SAFE`):
ASCII letters, digits, `_`, `.`, `-`, `~`. -/
def always_safe (b : Nat) : Bool :=
  (65 ≤ b && b ≤ 90) || (97 ≤ b && b ≤ 122) || (48 ≤ b && b ≤ 57)
    || b == 95 || b == 46 || b == 45 || b == 126

/-- Uppercase hexadecimal digit. -/
def hex_digit (n : Nat) : Char :=
  if n < 10 then Char.ofNat (48 + n) else Char.ofNat (55 + n)

/-- Hexadecimal digit value, both cases (`_hextobyte`). -/
def hex_val (c : Char) : Option Nat :=
  if '0' ≤ c && c ≤ '9' then some (c.toNat - 48)
  else if 'A' ≤ c && c ≤ 'F' then some (c.toNat - 55)
  else if 'a' ≤ c && c ≤ 'f' then some (c.toNat - 87)
  else none

/-- The byte mapper of `urllib.parse.quote_plus`: an always-safe byte stays
itself, a space becomes `+`, anything else becomes uppercase `%XX`. This is
CPython's `quote(string, safe=' ')` followed by `.replace(' ', '+')`. -/
def quote_plus_bytes : List Nat → List Char
  | [] => []
  | b :: rest =>
    (if always_safe b then [Char.ofNat b]
     else if b = 32 then ['+']
     else ['%', hex_digit (b / 16), hex_digit (b % 16)]) ++ quote_plus_bytes rest

/-- `urllib.parse.quote_plus` on a string: quote the UTF-8 bytes. -/
def quote_plus (s : PyStr) : PyStr := quote_plus_bytes (utf8_encode s)

/-- `bytes.decode('utf-8', errors='replace')`. A well-formed byte string
decodes exactly as the strict decoder; the ill-formed fallback emits
`U+FFFD` for the offending byte and continues (a coarse model of CPython's
maximal-subpart replacement — every use in this development is on
well-formed sequences, where the two agree). -/
def utf8_decode_replace : List Nat → PyStr
  | [] => []
  | b :: rest =>
    match utf8_decode (b :: rest) with
    | some s => s
    | none => Char.ofNat 65533 :: utf8_decode_replace rest

/-- `urllib.parse.unquote_to_bytes` on an ASCII run: literal characters
become their code bytes and `%XX` with two hex digits becomes a byte; a `%`
not followed by two hex digits stays literal. -/
def unquote_to_bytes (s : List Char) : List Nat :=
  match s with
  | [] => []
  | c :: rest =>
    if c = '%' then
      match rest with
      | c1 :: c2 :: rest2 =>
        if (hex_val c1).isSome ∧ (hex_val c2).isSome then
          ((hex_val c1).getD 0 * 16 + (hex_val c2).getD 0) :: unquote_to_bytes rest2
        else 37 :: unquote_to_bytes (c1 :: c2 :: rest2)
      | [] => [37]
      | [c1] => 37 :: unquote_to_bytes [c1]
    else c.toNat :: unquote_to_bytes rest
termination_by s.length
decreasing_by
  all_goals simp_arith [List.length_cons]

/-- ASCII test for `unquote`'s run splitting (`_asciire`). -/
def is_ascii (c : Char) : Bool := c.toNat < 128

/-- `urllib.parse.unquote`'s run processing: maximal ASCII runs are
percent-decoded as bytes and UTF-8-decoded with replacement; non-ASCII
characters pass through verbatim. -/
def unquote_runs (s : List Char) : PyStr :=
  match s with
  | [] => []
  | c :: rest =>
    if is_ascii c then
      utf8_decode_replace (unquote_to_bytes ((c :: rest).takeWhile is_ascii))
        ++ unquote_runs (rest.dropWhile is_ascii)
    else c :: unquote_runs rest
termination_by s.length
decreasing_by
  all_goals simp only [List.length_cons]
  all_goals first
    | exact Nat.lt_succ_of_le ((List.dropWhile_suffix is_ascii).length_le)
    | omega

/-- `urllib.parse.unquote` with defaults (`utf-8`, `replace`): a string
without `%` is returned unchanged, otherwise the runs are processed. -/
def pyUnquote (s : PyStr) : PyStr :=
  if s.contains '%' then unquote_runs s else s

/-- `urllib.parse.unquote_plus`: replace `+` by space, then unquote. -/
def unquote_plus (s : PyStr) : PyStr :=
  pyUnquote (s.map (fun c => if c = '+' then ' ' else c))

/-- Python `s.split(sep)` (full split, no limit). -/
def split_all (sep : Char) : PyStr → List PyStr
  | [] => [[]]
  | c :: rest =>
    if c = sep then [] :: split_all sep rest
    else
      match split_all sep rest with
      | p :: ps => (c :: p) :: ps
      | [] => [[c]]

/-- `urllib.parse.parse_qsl(qs, keep_blank_values=True)`: split on `&`,
skip empty chunks, split each chunk once on `=` (a chunk without `=` gets an
empty value), and unquote-plus names and values. -/
def parse_qsl (qs : PyStr) : List (PyStr × PyStr) :=
  (split_all '&' qs).foldr
    (fun nv acc =>
      if nv = [] then acc
      else
        match split_char '=' nv with
        | some p => (unquote_plus p.1, unquote_plus p.2) :: acc
        | none => (unquote_plus nv, []) :: acc)
    []

/-- Insert one pair into the insertion-ordered dictionary of `parse_qs`. -/
def add_pair (d : List (PyStr × List PyStr)) (k : PyStr) (v : PyStr) :
    List (PyStr × List PyStr) :=
  if d.any (fun kv => kv.1 == k) then
    d.map (fun kv => if kv.1 == k then (kv.1, kv.2 ++ [v]) else kv)
  else d ++ [(k, [v])]

/-- `urllib.parse.parse_qs(qs, keep_blank_values=True)`: group the pairs by
name in insertion order. -/
def parse_qs (qs : PyStr) : List (PyStr × List PyStr) :=
  (parse_qsl qs).foldl (fun d kv => add_pair d kv.1 kv.2) []

/-- Join with `&`. -/
def join_amp : List PyStr → PyStr
  | [] => []
  | [p] => p
  | p :: q :: rest => p ++ '&' :: join_amp (q :: rest)

/-- `urllib.parse.urlencode(query, doseq=True)` on a parsed-query
dictionary: one `quoted-name=quoted-value` chunk per value, joined by `&`. -/
def urlencode (query : List (PyStr × List PyStr)) : PyStr :=
  join_amp (query.foldr
    (fun kv acc => kv.2.map (fun v => quote_plus kv.1 ++ '=' :: quote_plus v) ++ acc) [])

/-- `URLExtractor.TRACKING_PARAMS` (src/src/url_extractor.py lines 19-24). -/
def TRACKING_PARAMS : List PyStr :=
  [pstr ("utm_source"), pstr ("utm_medium"), pstr ("utm_campaign"), pstr ("utm_term"),
   pstr ("utm_content"), pstr ("fbclid"), pstr ("gclid"), pstr ("msclkid"),
   pstr ("mc_cid"), pstr ("mc_eid"), pstr ("_ga"), pstr ("_gl"), pstr ("ref"),
   pstr ("source"), pstr ("campaign"), pstr ("link_source"), pstr ("taid"),
   pstr ("user_email")]

/-- The netloc normalization of `URLExtractor.normalize_url` (lines 125-130):
lower-case, then strip one leading `www.`. -/
def norm_netloc (netloc : PyStr) : PyStr :=
  let n := lowerStr netloc
  if startswith n (pstr ("www.")) then n.drop 4 else n

/-- `URLExtractor.normalize_url` (src/src/url_extractor.py lines 96-168):
reject empty input; parse; require scheme and netloc; force `http`/`https`
to `https`; lower-case the netloc and strip one `www.`; when tracking-param
removal is on and a query exists, parse it, drop the recognized names
(case-insensitively) and re-encode (empty survivors give an empty query);
drop the fragment; default the path to `/`; reassemble. Any parse exception
is caught and yields `None`. -/
def normalize_url (remove_tracking_params : Bool) (url : PyStr) : Option PyStr :=
  if url = [] then none
  else
    match pyUrlparse url with
    | none => none
    | some p =>
      if p.scheme = [] ∨ p.netloc = [] then none
      else
        let scheme :=
          if p.scheme = pstr ("http") ∨ p.scheme = pstr ("https") then pstr ("https")
          else p.scheme
        let netloc := norm_netloc p.netloc
        let query :=
          if remove_tracking_params ∧ p.query ≠ [] then
            let cleaned := (parse_qs p.query).filter
              (fun kv => !(TRACKING_PARAMS.contains (lowerStr kv.1)))
            if cleaned ≠ [] then urlencode cleaned else []
          else p.query
        let path := if p.path = [] then pstr ("/") else p.path
        some (pyUrlunparse scheme netloc path p.params query [])

/-- `URLExtractor.extract_domain` (src/src/url_extractor.py lines 170-196):
parse, lower-case the netloc, strip one `www.`, strip a port, and return the
result when non-empty. -/
def extract_domain (url : PyStr) : Option PyStr :=
  match pyUrlparse url with
  | none => none
  | some p =>
    let d := norm_netloc p.netloc
    let d := if d.contains ':' then d.takeWhile (fun c => !(c == ':')) else d
    if d ≠ [] then some d else none

/-- The external-link payload of an embed. -/
structure External where
  uri : Option PyStr
deriving DecidableEq

/-- The embed shapes the system inspects (spec §9: a minimal tagged
structure for the payload shapes; unknown shapes are ignored). -/
inductive EmbedVal where
  | external : External → EmbedVal
  | recordWithMedia : Option EmbedVal → EmbedVal
  | images : EmbedVal
  | recordEmbed : EmbedVal

/-- A facet feature, carrying its `$type`. -/
structure FacetFeature where
  ty : PyStr
deriving DecidableEq

/-- A richtext facet: a list of features. -/
structure Facet where
  features : List FacetFeature
deriving DecidableEq

/-- A legacy `entities` entry, carrying its `type`. -/
structure EntityVal where
  ty : PyStr
deriving DecidableEq

/-- A decoded post record: the fields `_has_links`, `extract_url` and the
consumer path read. -/
structure RecordVal where
  text : PyStr
  facets : List Facet
  entities : List EntityVal
  embed : Option EmbedVal

/-- `URLExtractor._extract_from_embed` (src/src/url_extractor.py lines
63-94): an external embed yields its `uri`; a record-with-media whose media
is external yields that `uri`; other embeds yield nothing. -/
def extract_from_embed : EmbedVal → Option PyStr
  | .external e => e.uri
  | .recordWithMedia m =>
    match m with
    | some (.external e) => e.uri
    | _ => none
  | _ => none

/-- `URLExtractor.extract_url` (src/src/url_extractor.py lines 35-61):
extract the raw URL from the embed and normalize it. -/
def extract_url (remove_tracking_params : Bool) (record : RecordVal) : Option PyStr :=
  match record.embed with
  | none => none
  | some e =>
    match extract_from_embed e with
    | none => none
    | some raw => normalize_url remove_tracking_params raw

/-- Substring test (Python `in` on strings). -/
def contains_sub : PyStr → PyStr → Bool
  | [], t => t.isEmpty
  | c :: rest, t => t.isPrefixOf (c :: rest) || contains_sub rest t

/-- `FirehoseListener._has_links` (src/src/firehose.py lines 371-432): a
facet feature of the link type, a legacy link entity, an external (or
record-with-media external) embed, or `http://`/`https://` in the raw
text. -/
def has_links (record : RecordVal) : Bool :=
  record.facets.any (fun f =>
      f.features.any (fun ft => ft.ty == pstr ("app.bsky.richtext.facet#link")))
  || record.entities.any (fun e => e.ty == pstr ("link"))
  || (match record.embed with
      | some (.external _) => true
      | some (.recordWithMedia (some (.external _))) => true
      | _ => false)
  || (contains_sub record.text (pstr ("http://"))
      || contains_sub record.text (pstr ("https://")))

/-- `FeedGenerator._handle_post` (src/main.py lines 111-177): extract and
normalize the URL, extract its domain, check the whitelist, and on success
call `Database.add_post` DIRECTLY, returning `True` whether or not the row
was new (`False` on any rejection). -/
def feed_gen_handle_post (domains : List PyStr) (match_subdomains : Bool)
    (db : DBState) (uri cid author_did : PyStr) (record : RecordVal)
    (created_at now : Int) : DBState × Bool :=
  match extract_url true record with
  | none => (db, false)
  | some url =>
    match extract_domain url with
    | none => (db, false)
    | some domain =>
      if !(is_allowed domains match_subdomains domain) then (db, false)
      else
        let r := add_post db
          { uri := uri, cid := cid, author_did := author_did, url := url,
            domain := domain, text := some record.text, created_at := created_at } now
        (r.2, true)

/-- What the firehose batch queue actually holds: whatever value the
post callback returned. -/
inductive QueueItem where
  | pybool : Bool → QueueItem
  | fields : PostFields → QueueItem
deriving DecidableEq

/-- `FirehoseListener._handle_post` (src/src/firehose.py lines 262-318)
composed with the `FeedGenerator` callback: skip link-less records, invoke
the callback (which writes to storage directly and returns a boolean), and
append the callback's truthy return value to the batch queue. -/
def firehose_handle_post (domains : List PyStr) (match_subdomains : Bool)
    (db : DBState) (queue : List QueueItem) (uri cid author_did : PyStr)
    (record : RecordVal) (created_at now : Int) : DBState × List QueueItem :=
  if !(has_links record) then (db, queue)
  else
    let r := feed_gen_handle_post domains match_subdomains db uri cid author_did
      record created_at now
    if r.2 then (r.1, queue ++ [QueueItem.pybool true]) else (r.1, queue)

/-! ## Theorems -/

/-- C5 counterexample: with whitelist `{nytimes.com}` and subdomain matching
on, the query `.nytimes.com` is accepted by the code (`endswith` also matches
with an empty label part), but the claim's rule — which requires a non-empty
`x` with query `= x ++ "." ++ d` — rejects it, so the claimed iff fails. -/
theorem c5_counterexample :
    is_allowed [pstr ("nytimes.com")] true (pstr (".nytimes.com")) = true ∧
    claim_allows [pstr ("nytimes.com")] true (pstr (".nytimes.com")) = false := by
  constructor <;> decide

/-- C5 (amended): the filter accepts a query iff it is non-empty and, after
lower-casing and stripping one leading `www.`, it is either in the set, or
subdomain matching is on and it equals `x ++ "." ++ d` for some possibly
EMPTY `x` and some `d` in the set (i.e. it ends with `"." ++ d`); with a
possibly-empty label part, `"fake" ++ h` can still be accepted when another
set element is a dot-preceded suffix of it. -/
theorem is_allowed_iff (domains : List PyStr) (ms : Bool) (q : PyStr) :
    is_allowed domains ms q = true ↔
      q ≠ [] ∧
        (normalize_query q ∈ domains ∨
          (ms = true ∧ ∃ x d, d ∈ domains ∧ normalize_query q = x ++ '.' :: d)) := by
  unfold is_allowed
  by_cases hq : q = []
  · subst hq; simp
  · have hne : q.isEmpty = false := by
      cases q with
      | nil => exact absurd rfl hq
      | cons c rest => rfl
    rw [hne]
    simp only [Bool.false_eq_true, if_false, ne_eq, hq, not_false_eq_true, true_and]
    by_cases hmem : normalize_query q ∈ domains
    · have hc : domains.contains (normalize_query q) = true := by simpa using hmem
      rw [hc]
      simp [hmem]
    · have hc : domains.contains (normalize_query q) = false := by simpa using hmem
      rw [hc]
      simp only [Bool.false_eq_true, if_false, hmem, false_or]
      cases ms with
      | false => simp
      | true =>
        simp only [if_true, true_and]
        rw [List.any_eq_true]
        constructor
        · rintro ⟨w, hw, hsuf⟩
          obtain ⟨x, hx⟩ : ('.' :: w) <:+ normalize_query q := by
            simpa [endswith] using hsuf
          exact ⟨x, w, hw, hx.symm⟩
        · rintro ⟨x, w, hw, hx⟩
          refine ⟨w, hw, ?_⟩
          have hs : ('.' :: w) <:+ normalize_query q := ⟨x, hx.symm⟩
          simpa [endswith] using hs

/-- C6: the ranking score equals
`max(1, repost_count) ^ repost_weight * share_count * exp(-decay_rate * url_age_hours)`,
and a post with `repost_count = 0` scores exactly as one with
`repost_count = 1` under otherwise equal inputs. -/
theorem calculate_score_spec (cfg : RankingConfig) (share : ℕ) (age : ℝ) (r : ℕ) :
    calculate_score cfg share age r
        = ((max 1 r : ℕ) : ℝ) ^ cfg.repost_weight * (share : ℝ)
            * Real.exp (-(cfg.decay_rate * age)) ∧
    calculate_score cfg share age 0 = calculate_score cfg share age 1 := by
  constructor
  · simp [calculate_score, neg_mul]
  · rfl

/-- C4: calling `add_post` with a Post key already present in the store
returns `False`, leaves exactly one Post row with that key, and leaves the
whole store — in particular the attempted URL `share_count` increment —
unchanged, because the commit's `IntegrityError` rolls the session back. -/
theorem add_post_duplicate (db : DBState) (f : PostFields) (now : Int)
    (h : (db.posts.filter (fun p => p.uri == f.uri)).length = 1) :
    add_post db f now = (false, db) ∧
      (((add_post db f now).2.posts.filter (fun p => p.uri == f.uri)).length = 1) := by
  have hany : db.posts.any (fun q => q.uri == f.uri) = true := by
    rw [List.any_eq_true]
    have hlen : 0 < (db.posts.filter (fun p => p.uri == f.uri)).length := by omega
    rw [List.length_pos] at hlen
    obtain ⟨p, hp⟩ := List.exists_mem_of_ne_nil _ hlen
    exact ⟨p, (List.mem_filter.mp hp).1, (List.mem_filter.mp hp).2⟩
  have hflush : ∀ (t : List PostRow),
      t.any (fun q => q.uri == f.uri) = true →
      flushPosts t [mkPostRow f now] = .error () := by
    intro t ht
    simp [flushPosts, mkPostRow, ht]
  have hmain : add_post db f now = (false, db) := by
    unfold add_post
    simp only [get_or_create_url, openSession, flushSession, flushPosts,
      commitSession, bind, Except.bind, List.nil_append, List.append_nil]
    cases hfind : db.urls.find? (fun u => u.url == f.url) with
    | none =>
      simp only [hfind]
      rw [List.nil_append, hflush db.posts hany]
    | some u =>
      simp only [hfind]
      rw [List.nil_append, hflush db.posts hany]
  exact ⟨hmain, by rw [hmain]; exact h⟩

/-- C4 witness: a store holding one post; re-adding the same key returns
`False` and the store is unchanged. -/
theorem add_post_duplicate_witness :
    ((((⟨[⟨pstr ("u1"), pstr ("c1"), pstr ("a1"), none, 0, 0, 0⟩],
        [⟨0, pstr ("https://n.com/a"), pstr ("n.com"), 0, 1⟩],
        [⟨pstr ("u1"), 0, 0⟩], 1⟩ : DBState)).posts.filter
          (fun p => p.uri == (⟨pstr ("u1"), pstr ("c2"), pstr ("a2"),
            pstr ("https://n.com/a"), pstr ("n.com"), none, 3⟩ : PostFields).uri)).length = 1) ∧
    add_post (⟨[⟨pstr ("u1"), pstr ("c1"), pstr ("a1"), none, 0, 0, 0⟩],
        [⟨0, pstr ("https://n.com/a"), pstr ("n.com"), 0, 1⟩],
        [⟨pstr ("u1"), 0, 0⟩], 1⟩ : DBState)
      (⟨pstr ("u1"), pstr ("c2"), pstr ("a2"),
        pstr ("https://n.com/a"), pstr ("n.com"), none, 3⟩ : PostFields) 7
      = (false, ⟨[⟨pstr ("u1"), pstr ("c1"), pstr ("a1"), none, 0, 0, 0⟩],
        [⟨0, pstr ("https://n.com/a"), pstr ("n.com"), 0, 1⟩],
        [⟨pstr ("u1"), 0, 0⟩], 1⟩) :=
  ⟨by decide, (add_post_duplicate _ _ 7 (by decide)).1⟩

/-- C3 evaluation (code bug): in a store already holding post `u0`, the batch
`[duplicate of u0, fresh u1]` returns a count of 1 while inserting nothing
(the duplicate's `IntegrityError` surfaces at the next element's autoflush,
the bare rollback discards the whole open transaction, and the `continue`
skips the fresh element); and the batch `[fresh u1, duplicate of u0]` raises,
because the duplicate's error only surfaces at the final commit, outside the
inner handler. -/
theorem add_posts_batch_counterexample :
    add_posts_batch
        (⟨[⟨pstr ("u0"), pstr ("c0"), pstr ("a0"), none, 0, 0, 0⟩],
          [⟨0, pstr ("https://n.com/a"), pstr ("n.com"), 0, 1⟩],
          [⟨pstr ("u0"), 0, 0⟩], 1⟩ : DBState)
        [⟨pstr ("u0"), pstr ("c0"), pstr ("a0"),
            pstr ("https://n.com/a"), pstr ("n.com"), none, 0⟩,
         ⟨pstr ("u1"), pstr ("c1"), pstr ("a1"),
            pstr ("https://n.com/a"), pstr ("n.com"), none, 1⟩] 5
      = .ok (1, ⟨[⟨pstr ("u0"), pstr ("c0"), pstr ("a0"), none, 0, 0, 0⟩],
          [⟨0, pstr ("https://n.com/a"), pstr ("n.com"), 0, 1⟩],
          [⟨pstr ("u0"), 0, 0⟩], 1⟩) ∧
    add_posts_batch
        (⟨[⟨pstr ("u0"), pstr ("c0"), pstr ("a0"), none, 0, 0, 0⟩],
          [⟨0, pstr ("https://n.com/a"), pstr ("n.com"), 0, 1⟩],
          [⟨pstr ("u0"), 0, 0⟩], 1⟩ : DBState)
        [⟨pstr ("u1"), pstr ("c1"), pstr ("a1"),
            pstr ("https://n.com/a"), pstr ("n.com"), none, 1⟩,
         ⟨pstr ("u0"), pstr ("c0"), pstr ("a0"),
            pstr ("https://n.com/a"), pstr ("n.com"), none, 0⟩] 5
      = .error () :=
  ⟨rfl, rfl⟩

/-- C8: `delete_posts_in_period` never touches the URL table; with both
bounds absent it deletes nothing and returns 0; otherwise it deletes exactly
the posts whose `created_at` lies in the half-open window (an absent bound
being unbounded on that side) and returns their number. -/
theorem delete_posts_in_period_spec (db : DBState) (s e : Option Int) :
    ((delete_posts_in_period db s e).2.urls = db.urls) ∧
    (s = none → e = none → delete_posts_in_period db s e = (0, db)) ∧
    (¬ (s = none ∧ e = none) →
      (delete_posts_in_period db s e).2.posts
          = db.posts.filter (fun p => !(in_window s e p.created_at)) ∧
      (delete_posts_in_period db s e).1
          = (db.posts.filter (fun p => in_window s e p.created_at)).length) := by
  unfold delete_posts_in_period
  rcases s with _ | sv <;> rcases e with _ | ev <;> simp

/-- C8 witness: a two-post store; deleting with both bounds absent is a
no-op, and deleting with `end = 1` removes exactly the older post while the
URL table survives. -/
theorem delete_posts_in_period_spec_witness :
    delete_posts_in_period
        (⟨[⟨pstr ("u0"), pstr ("c0"), pstr ("a0"), none, 0, 0, 0⟩,
           ⟨pstr ("u1"), pstr ("c1"), pstr ("a1"), none, 5, 5, 0⟩],
          [⟨0, pstr ("https://n.com/a"), pstr ("n.com"), 0, 2⟩],
          [⟨pstr ("u0"), 0, 0⟩, ⟨pstr ("u1"), 0, 5⟩], 1⟩ : DBState) none none
      = (0, ⟨[⟨pstr ("u0"), pstr ("c0"), pstr ("a0"), none, 0, 0, 0⟩,
           ⟨pstr ("u1"), pstr ("c1"), pstr ("a1"), none, 5, 5, 0⟩],
          [⟨0, pstr ("https://n.com/a"), pstr ("n.com"), 0, 2⟩],
          [⟨pstr ("u0"), 0, 0⟩, ⟨pstr ("u1"), 0, 5⟩], 1⟩) ∧
    (delete_posts_in_period
        (⟨[⟨pstr ("u0"), pstr ("c0"), pstr ("a0"), none, 0, 0, 0⟩,
           ⟨pstr ("u1"), pstr ("c1"), pstr ("a1"), none, 5, 5, 0⟩],
          [⟨0, pstr ("https://n.com/a"), pstr ("n.com"), 0, 2⟩],
          [⟨pstr ("u0"), 0, 0⟩, ⟨pstr ("u1"), 0, 5⟩], 1⟩ : DBState) none (some 1)).2.posts
      = [⟨pstr ("u1"), pstr ("c1"), pstr ("a1"), none, 5, 5, 0⟩] ∧
    (delete_posts_in_period
        (⟨[⟨pstr ("u0"), pstr ("c0"), pstr ("a0"), none, 0, 0, 0⟩,
           ⟨pstr ("u1"), pstr ("c1"), pstr ("a1"), none, 5, 5, 0⟩],
          [⟨0, pstr ("https://n.com/a"), pstr ("n.com"), 0, 2⟩],
          [⟨pstr ("u0"), 0, 0⟩, ⟨pstr ("u1"), 0, 5⟩], 1⟩ : DBState) none (some 1)).2.urls
      = [⟨0, pstr ("https://n.com/a"), pstr ("n.com"), 0, 2⟩] := by
  refine ⟨?_, ?_, ?_⟩
  · exact (delete_posts_in_period_spec _ none none).2.1 rfl rfl
  · have h2 := (delete_posts_in_period_spec
      (⟨[⟨pstr ("u0"), pstr ("c0"), pstr ("a0"), none, 0, 0, 0⟩,
         ⟨pstr ("u1"), pstr ("c1"), pstr ("a1"), none, 5, 5, 0⟩],
        [⟨0, pstr ("https://n.com/a"), pstr ("n.com"), 0, 2⟩],
        [⟨pstr ("u0"), 0, 0⟩, ⟨pstr ("u1"), 0, 5⟩], 1⟩ : DBState)
      none (some 1)).2.2 (by simp)
    rw [h2.1]
    decide
  · exact (delete_posts_in_period_spec _ none (some 1)).1

/-- C1 (code bug): every row dictionary produced by `get_recent_posts` and
`get_posts_by_domain` lacks the `url_first_seen` key, so the candidate loop
of `rank_posts` raises `KeyError` on any non-empty fetch instead of computing
`url_age_hours`. -/
theorem projections_missing_url_first_seen (p : PostRow) (u : UrlRow) (l : LinkRow)
    (rest : List (List (PyStr × PyVal))) :
    dict_get (recent_post_row p u l) (pstr ("url_first_seen")) = none ∧
    dict_get (domain_post_row p u l) (pstr ("url_first_seen")) = none ∧
    rank_posts_first_seen (recent_post_row p u l :: rest)
        = .error (pstr ("KeyError: url_first_seen")) := by
  refine ⟨rfl, rfl, rfl⟩

/-- Every unicode scalar value avoids the surrogate range and caps at
`0x10FFFF`. -/
theorem char_toNat_valid (c : Char) :
    c.toNat < 55296 ∨ (57344 ≤ c.toNat ∧ c.toNat < 1114112) := by
  have h := c.valid
  rw [UInt32.isValidChar] at h
  rcases h with h | ⟨h1, h2⟩
  · left
    simp only [Char.toNat]
    exact_mod_cast h
  · right
    simp only [Char.toNat]
    constructor
    · exact_mod_cast h1
    · exact_mod_cast h2

/-- UTF-8 code units are bytes. -/
theorem utf8_encode_char_lt (c : Char) : ∀ b ∈ utf8_encode_char c, b < 256 := by
  intro b hb
  have hv := char_toNat_valid c
  unfold utf8_encode_char at hb
  by_cases h1 : c.toNat < 128
  · simp [h1] at hb; omega
  · by_cases h2 : c.toNat < 2048
    · simp [h1, h2] at hb; rcases hb with hb | hb <;> omega
    · by_cases h3 : c.toNat < 65536
      · simp [h1, h2, h3] at hb; rcases hb with hb | hb | hb <;> omega
      · simp [h1, h2, h3] at hb
        rcases hb with hb | hb | hb | hb <;> omega

/-- UTF-8 code units of a whole string are bytes. -/
theorem utf8_encode_lt (s : PyStr) : ∀ b ∈ utf8_encode s, b < 256 := by
  induction s with
  | nil => intro b hb; simp [utf8_encode] at hb
  | cons c rest ih =>
    intro b hb
    rw [utf8_encode] at hb
    rcases List.mem_append.mp hb with hb | hb
    · exact utf8_encode_char_lt c b hb
    · exact ih b hb

/-- Decoding peels one encoded character off the front. -/
theorem utf8_decode_encode_cons (c : Char) (bs : List Nat) :
    utf8_decode (utf8_encode_char c ++ bs) = (utf8_decode bs).map (c :: ·) := by
  have hv := char_toNat_valid c
  have hof : Char.ofNat c.toNat = c := Char.ofNat_toNat c
  unfold utf8_decode utf8_encode_char
  by_cases h1 : c.toNat < 128
  · simp only [h1, if_true, List.cons_append, List.nil_append]
    rw [utf8_decode_go, if_pos h1, hof]
  · by_cases h2 : c.toNat < 2048
    · simp only [h1, h2, if_false, if_true, List.cons_append, List.nil_append]
      rw [utf8_decode_go, if_neg (by omega), if_neg (by omega), if_pos (by omega)]
      rw [utf8_decode_go, if_pos (by omega), if_pos rfl]
      have e5 : (192 + c.toNat / 64 - 192) * 64 + (128 + c.toNat % 64 - 128) = c.toNat := by
        omega
      rw [e5, if_pos (by omega), hof]
    · by_cases h3 : c.toNat < 65536
      · simp only [h1, h2, h3, if_false, if_true, List.cons_append, List.nil_append]
        rw [utf8_decode_go, if_neg (by omega), if_neg (by omega), if_neg (by omega),
          if_pos (by omega)]
        rw [utf8_decode_go, if_pos (by omega)]
        rw [if_neg (by omega)]
        have e7 : (224 + c.toNat / 4096 - 224) * 64 + (128 + c.toNat / 64 % 64 - 128)
            = c.toNat / 64 := by omega
        rw [e7]
        rw [utf8_decode_go, if_pos (by omega), if_pos rfl]
        have e8 : c.toNat / 64 * 64 + (128 + c.toNat % 64 - 128) = c.toNat := by omega
        rw [e8, if_pos (by omega), hof]
      · simp only [h1, h2, h3, if_false, List.cons_append, List.nil_append]
        have hval : c.toNat < 1114112 := by omega
        rw [utf8_decode_go, if_neg (by omega), if_neg (by omega), if_neg (by omega),
          if_neg (by omega), if_pos (by omega)]
        rw [utf8_decode_go, if_pos (by omega)]
        rw [if_neg (by omega)]
        have e9 : (240 + c.toNat / 262144 - 240) * 64 + (128 + c.toNat / 4096 % 64 - 128)
            = c.toNat / 4096 := by omega
        rw [e9]
        rw [utf8_decode_go, if_pos (by omega)]
        rw [if_neg (by omega)]
        have e10 : c.toNat / 4096 * 64 + (128 + c.toNat / 64 % 64 - 128)
            = c.toNat / 64 := by omega
        rw [e10]
        rw [utf8_decode_go, if_pos (by omega), if_pos rfl]
        have e11 : c.toNat / 64 * 64 + (128 + c.toNat % 64 - 128) = c.toNat := by omega
        rw [e11, if_pos (by omega), hof]

/-- UTF-8 round trip: strict decoding inverts encoding. -/
theorem utf8_decode_encode (s : PyStr) : utf8_decode (utf8_encode s) = some s := by
  induction s with
  | nil => rfl
  | cons c rest ih =>
    rw [utf8_encode, utf8_decode_encode_cons, ih]
    rfl

/-- The base64 alphabet map is inverted by the reverse lookup. -/
theorem b64_val_b64_char (n : Nat) (h : n < 64) : b64_val (b64_char n) = some n := by
  have hall : ∀ m : Fin 64, b64_val (b64_char m.val) = some m.val := by decide
  exact hall ⟨n, h⟩

/-- Alphabet characters are never the padding character. -/
theorem b64_char_ne_pad (n : Nat) (h : n < 64) : (b64_char n == '=') = false := by
  have hall : ∀ m : Fin 64, (b64_char m.val == '=') = false := by decide
  exact hall ⟨n, h⟩

/-- Alphabet characters survive the decoder's purge. -/
theorem b64_keep_b64_char (n : Nat) (h : n < 64) : b64_keep (b64_char n) = true := by
  simp [b64_keep, b64_val_b64_char n h]

/-- The padding character is kept. -/
theorem b64_keep_pad : b64_keep '=' = true := rfl

/-- Encoded streams contain only kept characters. -/
theorem b64_encode_filter (bs : List Nat) (h : ∀ b ∈ bs, b < 256) :
    (b64_encode bs).filter b64_keep = b64_encode bs := by
  induction bs using b64_encode.induct with
  | case1 => rfl
  | case2 b0 =>
    have hb0 : b0 < 256 := h b0 (by simp)
    simp [b64_encode, List.filter_cons,
      b64_keep_b64_char _ (by omega : b0 / 4 < 64),
      b64_keep_b64_char _ (by omega : b0 % 4 * 16 < 64), b64_keep_pad]
  | case3 b0 b1 =>
    have hb0 : b0 < 256 := h b0 (by simp)
    have hb1 : b1 < 256 := h b1 (by simp)
    simp [b64_encode, List.filter_cons,
      b64_keep_b64_char _ (by omega : b0 / 4 < 64),
      b64_keep_b64_char _ (by omega : b0 % 4 * 16 + b1 / 16 < 64),
      b64_keep_b64_char _ (by omega : b1 % 16 * 4 < 64), b64_keep_pad]
  | case4 b0 b1 b2 rest ih =>
    have hb0 : b0 < 256 := h b0 (by simp)
    have hb1 : b1 < 256 := h b1 (by simp)
    have hb2 : b2 < 256 := h b2 (by simp)
    have hrest : ∀ b ∈ rest, b < 256 := fun b hb => h b (by simp [hb])
    simp [b64_encode, List.filter_cons,
      b64_keep_b64_char _ (by omega : b0 / 4 < 64),
      b64_keep_b64_char _ (by omega : b0 % 4 * 16 + b1 / 16 < 64),
      b64_keep_b64_char _ (by omega : b1 % 16 * 4 + b2 / 64 < 64),
      b64_keep_b64_char _ (by omega : b2 % 64 < 64), ih hrest]

/-- Encoded streams come in whole quads. -/
theorem b64_encode_length (bs : List Nat) : (b64_encode bs).length % 4 = 0 := by
  induction bs using b64_encode.induct with
  | case1 => rfl
  | case2 b0 => simp [b64_encode]
  | case3 b0 b1 => simp [b64_encode]
  | case4 b0 b1 b2 rest ih => simp [b64_encode]; omega

/-- Quad-wise decoding inverts encoding on byte inputs. -/
theorem b64_decode_quads_encode (bs : List Nat) (h : ∀ b ∈ bs, b < 256) :
    b64_decode_quads (b64_encode bs) = some bs := by
  induction bs using b64_encode.induct with
  | case1 => rfl
  | case2 b0 =>
    have hb0 : b0 < 256 := h b0 (by simp)
    simp only [b64_encode, b64_decode_quads]
    rw [b64_val_b64_char _ (by omega : b0 / 4 < 64),
        b64_val_b64_char _ (by omega : b0 % 4 * 16 < 64)]
    simp [Option.some.injEq, List.cons.injEq]
    all_goals omega
  | case3 b0 b1 =>
    have hb0 : b0 < 256 := h b0 (by simp)
    have hb1 : b1 < 256 := h b1 (by simp)
    simp only [b64_encode, b64_decode_quads]
    rw [b64_val_b64_char _ (by omega : b0 / 4 < 64),
        b64_val_b64_char _ (by omega : b0 % 4 * 16 + b1 / 16 < 64),
        b64_val_b64_char _ (by omega : b1 % 16 * 4 < 64)]
    rw [Bool.and_eq_false_iff.mpr (Or.inr (b64_char_ne_pad _ (by omega : b1 % 16 * 4 < 64)))]
    simp [Option.some.injEq, List.cons.injEq]
    all_goals omega
  | case4 b0 b1 b2 rest ih =>
    have hb0 : b0 < 256 := h b0 (by simp)
    have hb1 : b1 < 256 := h b1 (by simp)
    have hb2 : b2 < 256 := h b2 (by simp)
    have hrest : ∀ b ∈ rest, b < 256 := fun b hb => h b (by simp [hb])
    simp only [b64_encode, b64_decode_quads]
    rw [b64_val_b64_char _ (by omega : b0 / 4 < 64),
        b64_val_b64_char _ (by omega : b0 % 4 * 16 + b1 / 16 < 64),
        b64_val_b64_char _ (by omega : b1 % 16 * 4 + b2 / 64 < 64),
        b64_val_b64_char _ (by omega : b2 % 64 < 64)]
    rw [Bool.and_eq_false_iff.mpr (Or.inr (b64_char_ne_pad _ (by omega : b2 % 64 < 64)))]
    rw [Bool.and_eq_false_iff.mpr (Or.inr (b64_char_ne_pad _ (by omega : b2 % 64 < 64)))]
    simp [ih hrest, Option.some.injEq, List.cons.injEq]
    all_goals omega

/-- Base64 round trip on byte inputs. -/
theorem b64_decode_encode (bs : List Nat) (h : ∀ b ∈ bs, b < 256) :
    b64_decode (b64_encode bs) = some bs := by
  unfold b64_decode
  rw [b64_encode_filter bs h]
  simp [b64_encode_length bs, b64_decode_quads_encode bs h]

/-- `split(sep, 1)` recovers the pieces around the first separator when the
left piece cannot contain a colon. -/
theorem split_once_colon2 (a b : PyStr) (h : ':' ∉ a) :
    split_once (pstr ("::")) (a ++ ':' :: ':' :: b) = some (a, b) := by
  have hsep : pstr ("::") = [':', ':'] := rfl
  induction a with
  | nil =>
    simp only [List.nil_append]
    rw [split_once, hsep, if_pos (by simp [List.isPrefixOf])]
    rfl
  | cons c a ih =>
    have hc : ¬ (c = ':') := fun hh => h (by simp [hh])
    have hmem : ':' ∉ a := fun hm => h (by simp [hm])
    simp only [List.cons_append]
    rw [split_once, hsep]
    have hnp : (([':', ':'] : PyStr).isPrefixOf (c :: (a ++ ':' :: ':' :: b))) = false := by
      simp [List.isPrefixOf]
      intro hcc
      exact absurd hcc.symm hc
    rw [hsep] at ih
    simp [hnp, ih hmem]

/-- Digits are not colons. -/
theorem all_digits_no_colon (s : List Char) (h : all_digits s = true) : ':' ∉ s := by
  intro hm
  have hall : s.all is_digit = true := by
    unfold all_digits at h
    exact (Bool.and_eq_true_iff.mp h).2
  exact absurd (List.all_eq_true.mp hall ':' hm) (by decide)

/-- Exponent tails contain no colon. -/
theorem exp_ok_no_colon (s : List Char) (h : exp_ok s = true) : ':' ∉ s := by
  intro hm
  cases s with
  | nil => simp at hm
  | cons c r =>
    rw [exp_ok.eq_def] at h
    simp only at h
    by_cases hce : c = 'e' ∨ c = 'E'
    · rw [if_pos hce] at h
      have hcne : c ≠ ':' := by rcases hce with hce | hce <;> simp [hce]
      rcases List.mem_cons.mp hm with hm1 | hm1
      · exact hcne hm1.symm
      · cases r with
        | nil => simp at h
        | cons s2 r2 =>
          simp only at h
          by_cases hs : s2 = '+' ∨ s2 = '-'
          · rw [if_pos hs] at h
            have hs2 : s2 ≠ ':' := by rcases hs with hs | hs <;> simp [hs]
            rcases List.mem_cons.mp hm1 with hm2 | hm2
            · exact hs2 hm2.symm
            · exact all_digits_no_colon r2 h hm2
          · rw [if_neg hs] at h
            exact all_digits_no_colon (s2 :: r2) h hm1
    · rw [if_neg hce] at h
      exact absurd h (by simp)

/-- No member of a digit run is a colon. -/
theorem takeWhile_digit_no_colon (t : List Char) : ':' ∉ t.takeWhile is_digit := by
  intro hmm
  exact absurd (List.mem_takeWhile_imp hmm) (by decide)

/-- Mantissas contain no colon. -/
theorem mantissa_no_colon (s : List Char) (h : mantissa_ok s = true) : ':' ∉ s := by
  intro hm
  rw [← List.takeWhile_append_dropWhile is_digit s] at hm
  rcases List.mem_append.mp hm with hm1 | hm1
  · exact takeWhile_digit_no_colon s hm1
  · rw [mantissa_ok.eq_def] at h
    cases hr : s.dropWhile is_digit with
    | nil => rw [hr] at hm1; simp at hm1
    | cons c r2 =>
      rw [hr] at h hm1
      simp only at h
      by_cases hdot : c = '.'
      · subst hdot
        rw [if_pos rfl] at h
        have hexp : exp_ok (r2.dropWhile is_digit) = true := (Bool.and_eq_true_iff.mp h).2
        rcases List.mem_cons.mp hm1 with hm2 | hm2
        · exact absurd hm2 (by decide)
        · rw [← List.takeWhile_append_dropWhile is_digit r2] at hm2
          rcases List.mem_append.mp hm2 with hm3 | hm3
          · exact takeWhile_digit_no_colon r2 hm3
          · exact exp_ok_no_colon _ hexp hm3
      · rw [if_neg hdot] at h
        exact exp_ok_no_colon _ (Bool.and_eq_true_iff.mp h).2 hm1

/-- Accepted float literals contain no colon. -/
theorem float_no_colon (s : PyStr) (h : (float_of_str s).isSome) : ':' ∉ s := by
  intro hm
  have hf : is_float_str s = true := by
    by_contra hf
    unfold float_of_str at h
    rw [if_neg hf] at h
    simp at h
  unfold is_float_str at hf
  cases s with
  | nil => simp at hm
  | cons c r =>
    rw [strip_sign.eq_def] at hf
    simp only at hf
    by_cases hsg : c = '+' ∨ c = '-'
    · rw [if_pos hsg] at hf
      have hcne : c ≠ ':' := by rcases hsg with hh | hh <;> simp [hh]
      rcases List.mem_cons.mp hm with hm1 | hm1
      · exact hcne hm1.symm
      · exact mantissa_no_colon r hf hm1
    · rw [if_neg hsg] at hf
      exact mantissa_no_colon _ hf hm

/-- C10: the pagination cursor codec round-trips. For every score string in
the float grammar (in particular `str(score)` of any finite float) and every
URI — including URIs containing `::` — decoding the cursor produced by
`_encode_cursor` succeeds and yields exactly the same score string and URI. -/
theorem cursor_roundtrip (score_repr uri : PyStr)
    (h : (float_of_str score_repr).isSome) :
    decode_cursor (encode_cursor score_repr uri) = some (score_repr, uri) := by
  have hcolon := float_no_colon _ h
  obtain ⟨q, hq⟩ := Option.isSome_iff_exists.mp h
  have hmsg : score_repr ++ pstr ("::") ++ uri = score_repr ++ ':' :: ':' :: uri := by
    simp [pstr]
  unfold encode_cursor decode_cursor
  rw [b64_decode_encode _ (utf8_encode_lt _), hmsg]
  simp only [Option.bind_eq_bind, Option.some_bind]
  rw [utf8_decode_encode]
  simp only [Option.some_bind]
  rw [split_once_colon2 _ _ hcolon]
  simp [hq]

/-- C10 witness: the concrete cursor for score `4.76` and a URI containing
`::` round-trips. -/
theorem cursor_roundtrip_witness :
    (float_of_str (pstr ("4.76"))).isSome = true ∧
    decode_cursor (encode_cursor (pstr ("4.76")) (pstr ("at://did:plc:x/a::b")))
      = some (pstr ("4.76"), pstr ("at://did:plc:x/a::b")) :=
  ⟨by decide, cursor_roundtrip _ _ (by decide)⟩

/-- C7: when the supplied cursor fails to decode, `get_feed_skeleton` does
not raise and produces exactly the response it produces with no cursor at
the same limit. -/
theorem get_feed_skeleton_bad_cursor (repr_q : ℚ → PyStr) (ranking : List ScoredPost)
    (limit : Nat) (c : PyStr) (h : decode_cursor_q c = none) :
    get_feed_skeleton repr_q ranking limit (some c)
      = get_feed_skeleton repr_q ranking limit none := by
  unfold get_feed_skeleton
  by_cases hc : c.isEmpty
  · simp [hc]
  · have hce : c.isEmpty = false := by simpa using hc
    simp only [hce, Bool.not_false, Bool.false_eq_true, if_false, if_true, h, ite_self]
    rcases Nat.eq_zero_or_pos limit with hl | hl
    · subst hl
      simp [List.take_take]
    · have htake : (ranking.take (limit * 3)).take limit
          = (ranking.take (limit + 1)).take limit := by
        rw [List.take_take, List.take_take]
        congr 1
        omega
      have hmore : (decide (limit < (ranking.take (limit * 3)).length))
          = (decide (limit < (ranking.take (limit + 1)).length)) := by
        simp only [List.length_take]
        apply Bool.decide_congr
        omega
      rw [htake, hmore]

/-- C7 witness: the cursor `!!!` (no base64 alphabet characters, decodes to
the empty byte string, which has no `::`) is tolerated and yields the same
page as no cursor. -/
theorem get_feed_skeleton_bad_cursor_witness :
    decode_cursor_q (pstr ("!!!")) = none ∧
    get_feed_skeleton (fun _ => []) [⟨pstr ("p1"), 2⟩, ⟨pstr ("p2"), 1⟩] 1
        (some (pstr ("!!!")))
      = get_feed_skeleton (fun _ => []) [⟨pstr ("p1"), 2⟩, ⟨pstr ("p2"), 1⟩] 1 none :=
  ⟨rfl, get_feed_skeleton_bad_cursor _ _ 1 _ rfl⟩

/-- C2 (code bug): on an accepted post record, the consumer path as wired in
this repository writes the post to Storage directly — the `FeedGenerator`
callback calls `add_post` itself and returns `True` — and the Batch Writer
queue receives that boolean instead of the post-field dictionary, so no post
ever reaches storage through `add_posts_batch`. Here a whitelisted external
link post lands in `posts` via the direct `add_post` call while the queue
holds `True`. -/
theorem consumer_writes_storage_directly :
    ((firehose_handle_post [pstr ("nytimes.com")] true
        ⟨[], [], [], 0⟩ [] (pstr ("at://did:plc:a/app.bsky.feed.post/1")) (pstr ("c1"))
        (pstr ("did:plc:a"))
        ⟨pstr ("check this"), [], [],
          some (.external ⟨some (pstr ("https://nytimes.com/a"))⟩)⟩ 0 0).1.posts.map
      (fun p => p.uri)) = [pstr ("at://did:plc:a/app.bsky.feed.post/1")] ∧
    (firehose_handle_post [pstr ("nytimes.com")] true
        ⟨[], [], [], 0⟩ [] (pstr ("at://did:plc:a/app.bsky.feed.post/1")) (pstr ("c1"))
        (pstr ("did:plc:a"))
        ⟨pstr ("check this"), [], [],
          some (.external ⟨some (pstr ("https://nytimes.com/a"))⟩)⟩ 0 0).2
      = [QueueItem.pybool true] :=
  ⟨rfl, rfl⟩

/-- C9 counterexample: URL normalization is not idempotent. A host beginning
with a doubled `www.` label loses exactly one `www.` per application, so the
second application produces a different URL. -/
theorem c9_counterexample :
    normalize_url true (pstr ("http://www.www.example.com/"))
        = some (pstr ("https://www.example.com/")) ∧
    normalize_url true (pstr ("https://www.example.com/"))
        = some (pstr ("https://example.com/")) ∧
    some (pstr ("https://example.com/")) ≠ some (pstr ("https://www.example.com/")) :=
  ⟨by decide, by decide, by decide⟩

/-! ### Character and splitting infrastructure for URL idempotence -/

/-- `Char.ofNat` inverts `Char.toNat` below the surrogate range. -/
theorem toNat_ofNat_small (n : Nat) (h : n < 55296) : (Char.ofNat n).toNat = n := by
  have hv : n.isValidChar := Or.inl h
  simp only [Char.ofNat, dif_pos hv, Char.ofNatAux, Char.toNat]
  simp [UInt32.toNat]

/-- Characters with equal code points are equal. -/
theorem char_eq_of_toNat (c d : Char) (h : c.toNat = d.toNat) : c = d := by
  have hv : c.val = d.val := by
    apply UInt32.ext
    exact_mod_cast h
  exact Char.ext hv

/-- The code point of `Char.toLower`. -/
theorem toLower_toNat (c : Char) :
    (Char.toLower c).toNat =
      if 65 ≤ c.toNat ∧ c.toNat ≤ 90 then c.toNat + 32 else c.toNat := by
  simp only [Char.toLower]
  split
  · exact toNat_ofNat_small _ (by omega)
  · rfl

/-- `Char.toLower` is idempotent. -/
theorem toLower_idem (c : Char) : (Char.toLower c).toLower = Char.toLower c := by
  apply char_eq_of_toNat
  have h1 := toLower_toNat c
  have h2 := toLower_toNat (Char.toLower c)
  by_cases h : 65 ≤ c.toNat ∧ c.toNat ≤ 90
  · rw [if_pos h] at h1
    rw [h1, if_neg (by omega)] at h2
    omega
  · rw [if_neg h] at h1
    rw [h1, if_neg h] at h2
    omega

/-- Lower-casing a string is idempotent. -/
theorem lowerStr_idem (s : PyStr) : lowerStr (lowerStr s) = lowerStr s := by
  simp only [lowerStr, List.map_map]
  apply List.map_congr_left
  intro c _
  exact toLower_idem c

/-- `Char.toLower` fixes characters that are not upper-case letters. -/
theorem toLower_of_not_upper (c : Char) (h : ¬ (65 ≤ c.toNat ∧ c.toNat ≤ 90)) :
    Char.toLower c = c := by
  apply char_eq_of_toNat
  rw [toLower_toNat, if_neg h]

/-- Only `d` itself lower-cases to a target `d` outside the lower-case range. -/
theorem toLower_eq_of_not_lower (c d : Char) (hd : ¬ (97 ≤ d.toNat ∧ d.toNat ≤ 122))
    (h : Char.toLower c = d) : c = d := by
  have ht := toLower_toNat c
  rw [h] at ht
  by_cases hc : 65 ≤ c.toNat ∧ c.toNat ≤ 90
  · rw [if_pos hc] at ht
    omega
  · rw [if_neg hc] at ht
    exact char_eq_of_toNat c d ht.symm

/-- `Char.toLower` never maps anything to tab, CR or LF. -/
theorem toLower_keep (c : Char) (h : keep_char c = true) :
    keep_char (Char.toLower c) = true := by
  simp only [keep_char, Bool.not_eq_true', Bool.or_eq_false_iff, beq_eq_false_iff_ne,
    ne_eq] at h ⊢
  rw [toLower_toNat]
  by_cases hc : 65 ≤ c.toNat ∧ c.toNat ≤ 90
  · rw [if_pos hc]
    omega
  · rw [if_neg hc]
    exact h

/-- `contains` agrees with membership. -/
theorem contains_iff (l : PyStr) (c : Char) : l.contains c = true ↔ c ∈ l :=
  List.elem_iff

/-- Soundness of `split_char`: the two parts rebuild the input and the
separator does not occur before the cut. -/
theorem split_char_sound (sep : Char) (s a b : PyStr)
    (h : split_char sep s = some (a, b)) : s = a ++ sep :: b ∧ sep ∉ a := by
  induction s generalizing a b with
  | nil => simp [split_char] at h
  | cons c rest ih =>
    rw [split_char] at h
    by_cases hc : c = sep
    · rw [if_pos hc] at h
      simp only [Option.some.injEq, Prod.mk.injEq] at h
      obtain ⟨ha, hb⟩ := h
      subst ha
      subst hb
      simp [hc]
    · rw [if_neg hc] at h
      cases hsc : split_char sep rest with
      | none =>
        rw [hsc] at h
        simp at h
      | some p =>
        rw [hsc] at h
        simp only [Option.map_some', Option.some.injEq, Prod.mk.injEq] at h
        obtain ⟨ha, hb⟩ := h
        obtain ⟨hs, hn⟩ := ih p.1 p.2 (by rw [hsc])
        constructor
        · rw [← ha, ← hb, List.cons_append, ← hs]
        · rw [← ha]
          intro hm
          rcases List.mem_cons.mp hm with he | hm2
          · exact hc he.symm
          · exact hn hm2

/-- `split_char` finds a separator placed after a separator-free prefix. -/
theorem split_char_append (sep : Char) (a b : PyStr) (h : sep ∉ a) :
    split_char sep (a ++ sep :: b) = some (a, b) := by
  induction a with
  | nil => simp [split_char]
  | cons c a ih =>
    have hc : c ≠ sep := fun e => h (e ▸ List.mem_cons_self c a)
    rw [List.cons_append, split_char, if_neg hc,
      ih (fun m => h (List.mem_cons_of_mem c m))]
    rfl

/-- `split_char` misses exactly when the separator is absent. -/
theorem split_char_eq_none (sep : Char) (s : PyStr) :
    split_char sep s = none ↔ sep ∉ s := by
  induction s with
  | nil => simp [split_char]
  | cons c rest ih =>
    rw [split_char]
    by_cases hc : c = sep
    · rw [if_pos hc]
      simp [hc]
    · rw [if_neg hc]
      cases hsc : split_char sep rest with
      | none =>
        simp only [Option.map_none']
        rw [hsc] at ih
        simp only [true_iff] at ih
        constructor
        · intro _ hm
          rcases List.mem_cons.mp hm with he | hm2
          · exact hc he.symm
          · exact ih hm2
        · intro _
          trivial
      | some p =>
        simp only [Option.map_some']
        rw [hsc] at ih
        simp only [false_iff, not_not, reduceCtorEq] at ih
        exact iff_of_false (by simp) fun hm => hm (List.mem_cons_of_mem c ih)

/-- `split_last` misses exactly when the separator is absent. -/
theorem split_last_eq_none_aux (sep : Char) (s : PyStr)
    (h : split_last sep s = none) : sep ∉ s := by
  induction s with
  | nil => simp
  | cons c rest ih =>
    rw [split_last] at h
    cases hsc : split_last sep rest with
    | some p =>
      rw [hsc] at h
      simp at h
    | none =>
      rw [hsc] at h
      by_cases hc : c = sep
      · rw [if_pos hc] at h
        simp at h
      · rw [if_neg hc] at h
        intro hm
        rcases List.mem_cons.mp hm with he | hm2
        · exact hc he.symm
        · exact ih hsc hm2

/-- Soundness of `split_last`: the parts rebuild the input and the separator
does not occur after the cut. -/
theorem split_last_sound (sep : Char) (s a b : PyStr)
    (h : split_last sep s = some (a, b)) : s = a ++ sep :: b ∧ sep ∉ b := by
  induction s generalizing a b with
  | nil => simp [split_last] at h
  | cons c rest ih =>
    rw [split_last] at h
    cases hsc : split_last sep rest with
    | some p =>
      rw [hsc] at h
      simp only [Option.some.injEq, Prod.mk.injEq] at h
      obtain ⟨ha, hb⟩ := h
      obtain ⟨hs, hn⟩ := ih p.1 p.2 (by rw [hsc])
      constructor
      · rw [← ha, ← hb, List.cons_append, ← hs]
      · rw [← hb]
        exact hn
    | none =>
      rw [hsc] at h
      by_cases hc : c = sep
      · rw [if_pos hc] at h
        simp only [Option.some.injEq, Prod.mk.injEq] at h
        obtain ⟨ha, hb⟩ := h
        refine ⟨?_, ?_⟩
        · rw [← ha, ← hb, hc]
          rfl
        · rw [← hb]
          exact split_last_eq_none_aux sep rest hsc
      · rw [if_neg hc] at h
        simp at h

/-- `split_last` finds a separator with a separator-free suffix after it. -/
theorem split_last_append (sep : Char) (a b : PyStr) (h : sep ∉ b) :
    split_last sep (a ++ sep :: b) = some (a, b) := by
  induction a with
  | nil =>
    rw [List.nil_append, split_last]
    cases hsc : split_last sep b with
    | some p =>
      exfalso
      obtain ⟨hs, _⟩ := split_last_sound sep b p.1 p.2 hsc
      exact h (hs ▸ List.mem_append_right p.1 (List.mem_cons_self sep p.2))
    | none => rw [if_pos rfl]
  | cons c a ih =>
    rw [List.cons_append, split_last, ih]

/-- `take_until_delims` consumes a delimiter-free string entirely. -/
theorem take_until_all (s : PyStr) (h : ∀ c ∈ s, ¬ (c = '/' ∨ c = '?' ∨ c = '#')) :
    take_until_delims s = (s, []) := by
  induction s with
  | nil => rfl
  | cons c rest ih =>
    rw [take_until_delims, if_neg (h c (List.mem_cons_self c rest)),
      ih (fun d hd => h d (List.mem_cons_of_mem c hd))]

/-- `take_until_delims` stops at the first delimiter. -/
theorem take_until_append (a : PyStr) (d : Char) (t : PyStr)
    (ha : ∀ c ∈ a, ¬ (c = '/' ∨ c = '?' ∨ c = '#'))
    (hd : d = '/' ∨ d = '?' ∨ d = '#') :
    take_until_delims (a ++ d :: t) = (a, d :: t) := by
  induction a with
  | nil => rw [List.nil_append, take_until_delims, if_pos hd]
  | cons c a ih =>
    rw [List.cons_append, take_until_delims,
      if_neg (ha c (List.mem_cons_self c a)),
      ih (fun x hx => ha x (List.mem_cons_of_mem c hx))]

/-- Soundness of `take_until_delims`: the parts rebuild the input, the prefix
is delimiter-free, and the remainder starts with a delimiter if non-empty. -/
theorem take_until_sound (s : PyStr) :
    s = (take_until_delims s).1 ++ (take_until_delims s).2 ∧
    (∀ c ∈ (take_until_delims s).1, ¬ (c = '/' ∨ c = '?' ∨ c = '#')) ∧
    (∀ d t, (take_until_delims s).2 = d :: t → (d = '/' ∨ d = '?' ∨ d = '#')) := by
  induction s with
  | nil =>
    refine ⟨rfl, ?_, ?_⟩
    · intro c hc
      cases hc
    · intro d t h
      cases h
  | cons c rest ih =>
    rw [take_until_delims]
    by_cases hc : c = '/' ∨ c = '?' ∨ c = '#'
    · rw [if_pos hc]
      refine ⟨rfl, ?_, ?_⟩
      · intro x hx
        cases hx
      · intro d t h
        simp only at h
        rw [← ((List.cons.injEq c rest d t).mp h).1]
        exact hc
    · rw [if_neg hc]
      obtain ⟨h1, h2, h3⟩ := ih
      refine ⟨?_, ?_, ?_⟩
      · simp only
        rw [List.cons_append, ← h1]
      · simp only
        intro x hx
        rcases List.mem_cons.mp hx with he | hm
        · rw [he]
          exact hc
        · exact h2 x hm
      · simp only
        exact h3

/-- A string starts with any of its prefixes. -/
theorem startswith_append (t r : PyStr) : startswith (t ++ r) t = true := by
  rw [startswith, List.isPrefixOf_iff_prefix]
  exact List.prefix_append t r

/-- A satisfied `startswith` exhibits a suffix. -/
theorem startswith_ex (s t : PyStr) (h : startswith s t = true) : ∃ r, s = t ++ r := by
  rw [startswith, List.isPrefixOf_iff_prefix] at h
  obtain ⟨r, hr⟩ := h
  exact ⟨r, hr.symm⟩

/-- Lower-casing commutes with `drop`. -/
theorem lowerStr_drop (m : PyStr) (k : Nat) : lowerStr (m.drop k) = (lowerStr m).drop k := by
  simp only [lowerStr, List.map_drop]

/-- The netloc normalization is already lower-case. -/
theorem lowerStr_norm_netloc (n : PyStr) : lowerStr (norm_netloc n) = norm_netloc n := by
  rw [norm_netloc]
  by_cases hs : startswith (lowerStr n) (pstr ("www.")) = true
  · rw [if_pos hs, lowerStr_drop, lowerStr_idem]
  · rw [if_neg hs]
    exact lowerStr_idem n

/-- The netloc normalization is idempotent on hosts that do not still start
with `www.` after one pass. -/
theorem norm_netloc_idem (n : PyStr)
    (hw : startswith (norm_netloc n) (pstr ("www.")) = false) :
    norm_netloc (norm_netloc n) = norm_netloc n := by
  conv_lhs => rw [norm_netloc]
  rw [lowerStr_norm_netloc, if_neg (by rw [hw]; exact Bool.false_ne_true)]

/-- `clean_url` fixes a string whose head is not a control character and
whose characters survive the tab/CR/LF removal. -/
theorem clean_url_eq (s : PyStr)
    (hh : ∀ c, s.head? = some c → 32 < c.toNat)
    (hk : ∀ c ∈ s, keep_char c = true) : clean_url s = s := by
  rw [clean_url]
  cases s with
  | nil => rfl
  | cons c t =>
    rw [List.dropWhile_cons, if_neg]
    · exact List.filter_eq_self.mpr hk
    · have h32 := hh c rfl
      simp only [decide_eq_true_eq]
      omega

/-! ### Quote/unquote round trip -/

/-- `unquote_to_bytes` on a literal (non-`%`) head. -/
theorem unquote_to_bytes_cons (c : Char) (t : List Char) (h : ¬ c = '%') :
    unquote_to_bytes (c :: t) = c.toNat :: unquote_to_bytes t := by
  rw [unquote_to_bytes.eq_def]
  simp only
  rw [if_neg h]

/-- `unquote_to_bytes` on a well-formed percent escape. -/
theorem unquote_to_bytes_pct (h1 h2 : Char) (t : List Char)
    (hh : (hex_val h1).isSome = true ∧ (hex_val h2).isSome = true) :
    unquote_to_bytes ('%' :: h1 :: h2 :: t) =
      ((hex_val h1).getD 0 * 16 + (hex_val h2).getD 0) :: unquote_to_bytes t := by
  rw [unquote_to_bytes.eq_def]
  simp only
  rw [if_pos trivial, if_pos hh]

/-- `hex_val` inverts `hex_digit` on nibbles. -/
theorem hex_val_hex_digit (n : Nat) (h : n < 16) : hex_val (hex_digit n) = some n := by
  have key : ∀ i : Fin 16, hex_val (hex_digit i.val) = some i.val := by decide
  exact key ⟨n, h⟩

/-- The fields of a satisfied `always_safe`. -/
theorem always_safe_facts (b : Nat) (h : always_safe b = true) :
    (65 ≤ b ∧ b ≤ 90) ∨ (97 ≤ b ∧ b ≤ 122) ∨ (48 ≤ b ∧ b ≤ 57) ∨
      b = 95 ∨ b = 46 ∨ b = 45 ∨ b = 126 := by
  simp only [always_safe, Bool.or_eq_true, Bool.and_eq_true_iff, decide_eq_true_eq,
    beq_iff_eq] at h
  tauto

/-- The code point of an `hex_digit` output. -/
theorem hex_digit_toNat (n : Nat) (h : n < 16) :
    (hex_digit n).toNat = if n < 10 then 48 + n else 55 + n := by
  rw [hex_digit]
  by_cases h10 : n < 10
  · rw [if_pos h10, if_pos h10, toNat_ofNat_small _ (by omega)]
  · rw [if_neg h10, if_neg h10, toNat_ofNat_small _ (by omega)]

/-- Character-set bound for `quote_plus_bytes` output: every character is
printable ASCII, distinct from the structural characters of a query string.
-/
theorem quote_plus_bytes_chars (bs : List Nat) (hb : ∀ b ∈ bs, b < 256) :
    ∀ c ∈ quote_plus_bytes bs,
      c ≠ '&' ∧ c ≠ '=' ∧ c ≠ '#' ∧ keep_char c = true ∧ is_ascii c = true := by
  induction bs with
  | nil =>
    intro c hc
    cases hc
  | cons b rest ih =>
    intro c hc
    have hb0 : b < 256 := hb b (List.mem_cons_self b rest)
    have hrest : ∀ x ∈ rest, x < 256 := fun x hx => hb x (List.mem_cons_of_mem b hx)
    rw [quote_plus_bytes] at hc
    rcases List.mem_append.mp hc with hhead | htail
    · have hchar : 33 ≤ c.toNat ∧ c.toNat ≤ 126 ∧ c.toNat ≠ 38 ∧ c.toNat ≠ 61 ∧
          c.toNat ≠ 35 := by
        by_cases hsafe : always_safe b = true
        · rw [if_pos hsafe] at hhead
          have he := List.mem_singleton.mp hhead
          have hfacts := always_safe_facts b hsafe
          rw [he, toNat_ofNat_small b (by omega)]
          omega
        · rw [if_neg hsafe] at hhead
          by_cases h32 : b = 32
          · rw [if_pos h32] at hhead
            have he := List.mem_singleton.mp hhead
            rw [he]
            decide
          · rw [if_neg h32] at hhead
            have ht1 := hex_digit_toNat (b / 16) (by omega)
            have ht2 := hex_digit_toNat (b % 16) (by omega)
            simp only [List.mem_cons, List.mem_singleton, List.not_mem_nil,
              or_false] at hhead
            rcases hhead with he | he | he
            · rw [he]
              decide
            · rw [he, ht1]
              split <;> omega
            · rw [he, ht2]
              split <;> omega
      refine ⟨?_, ?_, ?_, ?_, ?_⟩
      · intro e
        rw [e] at hchar
        revert hchar
        decide
      · intro e
        rw [e] at hchar
        revert hchar
        decide
      · intro e
        rw [e] at hchar
        revert hchar
        decide
      · simp only [keep_char, Bool.not_eq_true', Bool.or_eq_false_iff,
          beq_eq_false_iff_ne, ne_eq]
        omega
      · simp only [is_ascii, decide_eq_true_eq]
        omega
    · exact ih hrest c htail

/-- Percent-decoding the plus-mapped `quote_plus_bytes` output recovers the
bytes. -/
theorem unquote_quote_bytes (bs : List Nat) (hb : ∀ b ∈ bs, b < 256) :
    unquote_to_bytes ((quote_plus_bytes bs).map (fun c => if c = '+' then ' ' else c))
      = bs := by
  induction bs with
  | nil =>
    rw [quote_plus_bytes, List.map_nil, unquote_to_bytes]
  | cons b rest ih =>
    have hb0 : b < 256 := hb b (List.mem_cons_self b rest)
    have hrest : ∀ x ∈ rest, x < 256 := fun x hx => hb x (List.mem_cons_of_mem b hx)
    rw [quote_plus_bytes]
    by_cases hsafe : always_safe b = true
    · rw [if_pos hsafe]
      have hfacts := always_safe_facts b hsafe
      have h43 : ('+' : Char).toNat = 43 := rfl
      have h37 : ('%' : Char).toNat = 37 := rfl
      have hplus : ¬ Char.ofNat b = '+' := by
        intro e
        have hv := toNat_ofNat_small b (by omega)
        rw [e, h43] at hv
        omega
      have hpct : ¬ Char.ofNat b = '%' := by
        intro e
        have hv := toNat_ofNat_small b (by omega)
        rw [e, h37] at hv
        omega
      rw [List.singleton_append, List.map_cons, if_neg hplus,
        unquote_to_bytes_cons _ _ hpct, toNat_ofNat_small b (by omega), ih hrest]
    · rw [if_neg hsafe]
      by_cases h32 : b = 32
      · rw [if_pos h32, List.singleton_append, List.map_cons, if_pos rfl,
          unquote_to_bytes_cons _ _ (by decide), ih hrest, h32]
        rfl
      · rw [if_neg h32, List.cons_append, List.cons_append, List.singleton_append,
          List.map_cons, List.map_cons, List.map_cons,
          if_neg (by decide), if_neg ?hp1, if_neg ?hp2]
        case hp1 =>
          intro e
          have ht := hex_digit_toNat (b / 16) (by omega)
          rw [e] at ht
          have h43 : ('+' : Char).toNat = 43 := rfl
          rw [h43] at ht
          by_cases hlt : b / 16 < 10
          · rw [if_pos hlt] at ht
            omega
          · rw [if_neg hlt] at ht
            omega
        case hp2 =>
          intro e
          have ht := hex_digit_toNat (b % 16) (by omega)
          rw [e] at ht
          have h43 : ('+' : Char).toNat = 43 := rfl
          rw [h43] at ht
          by_cases hlt : b % 16 < 10
          · rw [if_pos hlt] at ht
            omega
          · rw [if_neg hlt] at ht
            omega
        rw [unquote_to_bytes_pct _ _ _
          ⟨by rw [hex_val_hex_digit (b / 16) (by omega)]; rfl,
           by rw [hex_val_hex_digit (b % 16) (by omega)]; rfl⟩,
          hex_val_hex_digit (b / 16) (by omega), hex_val_hex_digit (b % 16) (by omega),
          ih hrest]
        simp only [Option.getD_some]
        congr 1
        omega

/-- `quote_plus_bytes` distributes over append. -/
theorem quote_plus_bytes_append (a b : List Nat) :
    quote_plus_bytes (a ++ b) = quote_plus_bytes a ++ quote_plus_bytes b := by
  induction a with
  | nil => rfl
  | cons x a ih =>
    rw [List.cons_append, quote_plus_bytes, quote_plus_bytes, ih, List.append_assoc]

/-- Bytes above 126 are never `always_safe`. -/
theorem always_safe_high (b : Nat) (h : 126 < b) : always_safe b = false := by
  rcases Bool.eq_false_or_eq_true (always_safe b) with he | he
  · have := always_safe_facts b he
    omega
  · exact he

/-- Quoting a byte that is neither safe nor a space emits a percent sign. -/
theorem quote_head_pct (b : Nat) (t : List Nat) (hs : always_safe b = false)
    (h32 : b ≠ 32) : '%' ∈ quote_plus_bytes (b :: t) := by
  rw [quote_plus_bytes, if_neg (by rw [hs]; exact Bool.false_ne_true), if_neg h32]
  exact List.mem_append.mpr (Or.inl (List.mem_cons_self '%' _))

/-- The UTF-8 encoding of a non-ASCII character starts with an unsafe,
non-space lead byte. -/
theorem utf8_encode_char_high (c : Char) (h : 128 ≤ c.toNat) :
    ∃ b t, utf8_encode_char c = b :: t ∧ always_safe b = false ∧ b ≠ 32 := by
  rw [utf8_encode_char]
  rw [if_neg (by omega)]
  by_cases h2 : c.toNat < 2048
  · rw [if_pos h2]
    refine ⟨_, _, rfl, always_safe_high _ (by omega), by omega⟩
  · rw [if_neg h2]
    by_cases h3 : c.toNat < 65536
    · rw [if_pos h3]
      refine ⟨_, _, rfl, always_safe_high _ (by omega), by omega⟩
    · rw [if_neg h3]
      refine ⟨_, _, rfl, always_safe_high _ (by omega), by omega⟩

/-- When the plus-mapped quoted string has no percent sign, it is the
original string: every byte was safe or a space. -/
theorem quote_map_noesc (s : PyStr)
    (hp : '%' ∉ (quote_plus s).map (fun c => if c = '+' then ' ' else c)) :
    (quote_plus s).map (fun c => if c = '+' then ' ' else c) = s := by
  induction s with
  | nil => rfl
  | cons c rest ih =>
    rw [quote_plus, utf8_encode, quote_plus_bytes_append, List.map_append] at hp ⊢
    have hp1 : '%' ∉ (quote_plus_bytes (utf8_encode_char c)).map
        (fun c => if c = '+' then ' ' else c) :=
      fun hm => hp (List.mem_append.mpr (Or.inl hm))
    have hp2 : '%' ∉ (quote_plus_bytes (utf8_encode rest)).map
        (fun c => if c = '+' then ' ' else c) :=
      fun hm => hp (List.mem_append.mpr (Or.inr hm))
    have ih2 := ih (by rw [quote_plus]; exact hp2)
    rw [quote_plus] at ih2
    by_cases hc : c.toNat < 128
    · have hchar : utf8_encode_char c = [c.toNat] := by
        rw [utf8_encode_char]
        rw [if_pos hc]
      rw [hchar] at hp1
      rw [hchar]
      by_cases hsafe : always_safe c.toNat = true
      · have h43 : c.toNat ≠ 43 := by
          intro e
          rw [e] at hsafe
          exact absurd hsafe (by decide)
        have hq : quote_plus_bytes [c.toNat] = [Char.ofNat c.toNat] := by
          rw [quote_plus_bytes, if_pos hsafe, quote_plus_bytes, List.append_nil]
        rw [hq, List.map_cons, List.map_nil,
          if_neg (fun e => h43 (by rw [← Char.ofNat_toNat c, e]; rfl)),
          Char.ofNat_toNat, List.singleton_append, ih2]
      · have hsafe2 : always_safe c.toNat = false := by
          rcases Bool.eq_false_or_eq_true (always_safe c.toNat) with he | he
          · exact absurd he hsafe
          · exact he
        by_cases h32 : c.toNat = 32
        · have hsp : c = ' ' := char_eq_of_toNat c ' ' h32
          rw [h32, show quote_plus_bytes [32] = ['+'] from rfl,
            show (['+'].map (fun c => if c = '+' then ' ' else c)) = [' '] from rfl,
            List.singleton_append, ih2, hsp]
        · exfalso
          exact hp1 ((List.mem_map).mpr
            ⟨'%', quote_head_pct c.toNat [] hsafe2 h32, by decide⟩)
    · exfalso
      obtain ⟨b, t0, he, hsf, h32⟩ := utf8_encode_char_high c (by omega)
      apply hp1
      rw [he]
      exact (List.mem_map).mpr ⟨'%', quote_head_pct b t0 hsf h32, by decide⟩

/-- `unquote_runs` on a non-empty all-ASCII string is one decode run. -/
theorem unquote_runs_ascii (c : Char) (rest : List Char)
    (hs : ∀ x ∈ c :: rest, is_ascii x = true) :
    unquote_runs (c :: rest) = utf8_decode_replace (unquote_to_bytes (c :: rest)) := by
  rw [unquote_runs]
  rw [if_pos (hs c (List.mem_cons_self c rest))]
  rw [List.takeWhile_eq_self_iff.mpr hs,
    List.dropWhile_eq_nil_iff.mpr (fun x hx => hs x (List.mem_cons_of_mem c hx))]
  rw [show unquote_runs [] = [] from by rw [unquote_runs], List.append_nil]

/-- The replacing decoder agrees with the strict decoder on well-formed
input. -/
theorem utf8_decode_replace_some (bs : List Nat) (s : PyStr)
    (h : utf8_decode bs = some s) : utf8_decode_replace bs = s := by
  cases bs with
  | nil =>
    rw [show utf8_decode [] = some [] from rfl] at h
    rw [utf8_decode_replace]
    exact (Option.some.injEq _ _).mp h
  | cons b rest =>
    rw [utf8_decode_replace, h]

/-- `unquote_plus` inverts `quote_plus`. -/
theorem unquote_plus_quote_plus (s : PyStr) : unquote_plus (quote_plus s) = s := by
  rw [unquote_plus, pyUnquote]
  by_cases hp :
      ((quote_plus s).map (fun c => if c = '+' then ' ' else c)).contains '%' = true
  · rw [if_pos hp]
    have hmem : '%' ∈ (quote_plus s).map (fun c => if c = '+' then ' ' else c) :=
      (contains_iff _ '%').mp hp
    have hascii : ∀ x ∈ (quote_plus s).map (fun c => if c = '+' then ' ' else c),
        is_ascii x = true := by
      intro x hx
      obtain ⟨c0, hc0, he⟩ := List.mem_map.mp hx
      have := (quote_plus_bytes_chars (utf8_encode s) (utf8_encode_lt s) c0 hc0).2.2.2.2
      by_cases h43 : c0 = '+'
      · rw [← he, h43]
        rfl
      · rw [← he, if_neg h43]
        exact this
    cases hm : (quote_plus s).map (fun c => if c = '+' then ' ' else c) with
    | nil =>
      rw [hm] at hmem
      cases hmem
    | cons c rest =>
      rw [hm] at hascii
      rw [unquote_runs_ascii c rest hascii, ← hm, quote_plus, unquote_quote_bytes _ (utf8_encode_lt s)]
      exact utf8_decode_replace_some _ s (utf8_decode_encode s)
  · rw [if_neg hp]
    apply quote_map_noesc
    intro hmem
    exact hp ((contains_iff _ '%').mpr hmem)

/-! ### Query string pipeline -/

/-- `split_all` leaves a separator-free string whole. -/
theorem split_all_no_sep (sep : Char) (p : PyStr) (h : sep ∉ p) :
    split_all sep p = [p] := by
  induction p with
  | nil => rfl
  | cons c t ih =>
    have hc : c ≠ sep := fun e => h (e ▸ List.mem_cons_self c t)
    rw [split_all, if_neg hc, ih (fun m => h (List.mem_cons_of_mem c m))]

/-- `split_all` peels one chunk at the first separator. -/
theorem split_all_append (sep : Char) (a b : PyStr) (h : sep ∉ a) :
    split_all sep (a ++ sep :: b) = a :: split_all sep b := by
  induction a with
  | nil => rw [List.nil_append, split_all, if_pos rfl]
  | cons c a ih =>
    have hc : c ≠ sep := fun e => h (e ▸ List.mem_cons_self c a)
    rw [List.cons_append, split_all, if_neg hc,
      ih (fun m => h (List.mem_cons_of_mem c m))]

/-- `parse_qsl` over an `&`-join of non-empty separator-free chunks folds the
chunks. -/
theorem parse_qsl_join (parts : List PyStr)
    (h : ∀ p ∈ parts, p ≠ [] ∧ ('&') ∉ p) :
    parse_qsl (join_amp parts) = parts.foldr
      (fun nv acc =>
        match split_char '=' nv with
        | some pr => (unquote_plus pr.1, unquote_plus pr.2) :: acc
        | none => (unquote_plus nv, []) :: acc) [] := by
  induction parts with
  | nil => rfl
  | cons p ps ih =>
    cases ps with
    | nil =>
      obtain ⟨hne, hsep⟩ := h p (List.mem_cons_self p [])
      rw [join_amp, parse_qsl, split_all_no_sep '&' p hsep, List.foldr_cons,
        List.foldr_cons, List.foldr_nil, if_neg hne]
      cases split_char '=' p <;> rfl
    | cons q qs =>
      obtain ⟨hne, hsep⟩ := h p (List.mem_cons_self p (q :: qs))
      have hrest := fun r hr => h r (List.mem_cons_of_mem p hr)
      rw [join_amp, parse_qsl, split_all_append '&' p _ hsep, List.foldr_cons,
        if_neg hne, List.foldr_cons]
      have ihr := ih hrest
      rw [parse_qsl] at ihr
      rw [ihr, List.foldr_cons]

/-- Every chunk `urlencode` builds is a quoted name, `=`, and a quoted
value. -/
theorem urlencode_parts_mem (l : List (PyStr × List PyStr)) (p : PyStr)
    (hp : p ∈ l.foldr
      (fun kv acc => kv.2.map (fun v => quote_plus kv.1 ++ '=' :: quote_plus v) ++ acc)
      []) :
    ∃ k v, p = quote_plus k ++ '=' :: quote_plus v := by
  induction l with
  | nil => cases hp
  | cons kv rest ih =>
    rw [List.foldr_cons] at hp
    rcases List.mem_append.mp hp with hm | hm
    · obtain ⟨v, _, he⟩ := List.mem_map.mp hm
      exact ⟨kv.1, v, he.symm⟩
    · exact ih hm

/-- Folding the query-pair extractor over one key's encoded chunks prepends
that key's pairs. -/
theorem foldr_pairs_map (k : PyStr) (vs : List PyStr) (X : List (PyStr × PyStr)) :
    (vs.map (fun v => quote_plus k ++ '=' :: quote_plus v)).foldr
      (fun nv acc =>
        match split_char '=' nv with
        | some pr => (unquote_plus pr.1, unquote_plus pr.2) :: acc
        | none => (unquote_plus nv, []) :: acc) X
      = vs.map (fun v => (k, v)) ++ X := by
  induction vs with
  | nil => rfl
  | cons v vs ih =>
    have heq : ('=') ∉ quote_plus k := fun hm =>
      ((quote_plus_bytes_chars _ (utf8_encode_lt k)) '=' hm).2.1 rfl
    have hsplit : split_char '=' (quote_plus k ++ '=' :: quote_plus v)
        = some (quote_plus k, quote_plus v) := split_char_append '=' _ _ heq
    rw [List.map_cons, List.foldr_cons, ih, List.map_cons]
    simp only [hsplit]
    rw [unquote_plus_quote_plus, unquote_plus_quote_plus, List.cons_append]

/-- `parse_qsl` inverts `urlencode` down to the flat pair list. -/
theorem parse_qsl_urlencode (l : List (PyStr × List PyStr)) :
    parse_qsl (urlencode l)
      = l.foldr (fun kv acc => kv.2.map (fun v => (kv.1, v)) ++ acc) [] := by
  have hparts : ∀ p ∈ l.foldr
      (fun kv acc => kv.2.map (fun v => quote_plus kv.1 ++ '=' :: quote_plus v) ++ acc)
      [], p ≠ [] ∧ ('&') ∉ p := by
    intro p hp
    obtain ⟨k, v, he⟩ := urlencode_parts_mem l p hp
    subst he
    refine ⟨by simp, ?_⟩
    intro hm
    rcases List.mem_append.mp hm with hm1 | hm1
    · exact ((quote_plus_bytes_chars _ (utf8_encode_lt k)) '&' hm1).1 rfl
    · rcases List.mem_cons.mp hm1 with he2 | hm2
      · exact absurd he2 (by decide)
      · exact ((quote_plus_bytes_chars _ (utf8_encode_lt v)) '&' hm2).1 rfl
  rw [urlencode, parse_qsl_join _ hparts]
  clear hparts
  induction l with
  | nil => rfl
  | cons kv rest ih =>
    rw [List.foldr_cons, List.foldr_cons, List.foldr_append, ih, foldr_pairs_map]

/-- Folding one key's flat pairs into a dictionary that ends with that key
appends the values. -/
theorem add_pair_fold_values (k : PyStr) (vs : List PyStr)
    (d : List (PyStr × List PyStr)) (acc : List PyStr)
    (hk : ∀ kv ∈ d, kv.1 ≠ k) :
    (vs.map (fun v => (k, v))).foldl (fun d kv => add_pair d kv.1 kv.2)
        (d ++ [(k, acc)])
      = d ++ [(k, acc ++ vs)] := by
  induction vs generalizing acc with
  | nil => rw [List.map_nil, List.foldl_nil, List.append_nil]
  | cons v vs ih =>
    rw [List.map_cons, List.foldl_cons]
    have hstep : add_pair (d ++ [(k, acc)]) k v = d ++ [(k, acc ++ [v])] := by
      rw [add_pair, if_pos]
      · rw [List.map_append]
        have hfix : ∀ kv ∈ d,
            (if kv.1 == k then (kv.1, kv.2 ++ [v]) else kv) = kv := by
          intro kv hkv
          rw [if_neg]
          intro hbeq
          exact hk kv hkv (beq_iff_eq.mp hbeq)
        have hmapd :
            List.map (fun kv => if kv.1 == k then (kv.1, kv.2 ++ [v]) else kv) d = d := by
          calc List.map (fun kv => if kv.1 == k then (kv.1, kv.2 ++ [v]) else kv) d
              = List.map id d := List.map_congr_left fun a ha => hfix a ha
            _ = d := List.map_id d
        rw [hmapd]
        simp
      · rw [List.any_append]
        simp
    rw [hstep, ih (acc ++ [v])]
    simp

/-- Folding the flat pair list of a grouped dictionary onto a disjoint
accumulator dictionary rebuilds the concatenation. -/
theorem add_pair_fold_flat (l d : List (PyStr × List PyStr))
    (hdist : (d ++ l).Pairwise (fun a b => a.1 ≠ b.1))
    (hvals : ∀ kv ∈ l, kv.2 ≠ []) :
    (l.foldr (fun kv acc => kv.2.map (fun v => (kv.1, v)) ++ acc) []).foldl
        (fun d kv => add_pair d kv.1 kv.2) d
      = d ++ l := by
  induction l generalizing d with
  | nil => rw [List.foldr_nil, List.foldl_nil, List.append_nil]
  | cons kv rest ih =>
    rw [List.foldr_cons, List.foldl_append]
    obtain ⟨v, vs, hv⟩ : ∃ v vs, kv.2 = v :: vs := by
      cases hkv2 : kv.2 with
      | nil => exact absurd hkv2 (hvals kv (List.mem_cons_self kv rest))
      | cons v vs => exact ⟨v, vs, rfl⟩
    have hdk : ∀ a ∈ d, a.1 ≠ kv.1 := by
      intro a ha
      exact (List.pairwise_append.mp hdist).2.2 a ha kv (List.mem_cons_self kv rest)
    have hfirst : add_pair d kv.1 v = d ++ [(kv.1, [v])] := by
      rw [add_pair, if_neg]
      intro hany
      obtain ⟨a, ha, hbeq⟩ := List.any_eq_true.mp hany
      exact hdk a ha (beq_iff_eq.mp hbeq)
    rw [hv, List.map_cons, List.foldl_cons, hfirst,
      add_pair_fold_values kv.1 vs d [v] hdk]
    have hkv_eta : (kv.1, v :: vs) = kv := by
      rw [← hv]
    rw [List.singleton_append, hkv_eta]
    have hd2 : ((d ++ [kv]) ++ rest).Pairwise (fun a b => a.1 ≠ b.1) := by
      rw [List.append_assoc, List.singleton_append]
      exact hdist
    rw [ih (d ++ [kv]) hd2 (fun a ha => hvals a (List.mem_cons_of_mem kv ha)),
      List.append_assoc, List.singleton_append]

/-- `add_pair` preserves key distinctness and value non-emptiness. -/
theorem add_pair_inv (d : List (PyStr × List PyStr)) (k : PyStr) (v : PyStr)
    (h1 : d.Pairwise (fun a b => a.1 ≠ b.1)) (h2 : ∀ kv ∈ d, kv.2 ≠ []) :
    (add_pair d k v).Pairwise (fun a b => a.1 ≠ b.1) ∧
      ∀ kv ∈ add_pair d k v, kv.2 ≠ [] := by
  rw [add_pair]
  by_cases hany : d.any (fun kv => kv.1 == k) = true
  · rw [if_pos hany]
    constructor
    · rw [List.pairwise_map]
      apply h1.imp
      intro a b hab
      by_cases hak : a.1 == k <;> by_cases hbk : b.1 == k <;>
        simp only [if_pos, if_neg, hak, hbk, if_true, if_false] <;> exact hab
    · intro kv hm
      obtain ⟨a, ha, he⟩ := List.mem_map.mp hm
      by_cases hak : (a.1 == k) = true
      · rw [if_pos hak] at he
        rw [← he]
        simp
      · rw [if_neg hak] at he
        rw [← he]
        exact h2 a ha
  · rw [if_neg hany]
    constructor
    · rw [List.pairwise_append]
      refine ⟨h1, List.pairwise_singleton _ _, ?_⟩
      intro a ha b hb
      rw [List.mem_singleton.mp hb]
      intro he
      have hnk : ∀ kv ∈ d, ¬ (kv.1 == k) = true := by
        intro kv hkv hbeq
        exact hany (List.any_eq_true.mpr ⟨kv, hkv, hbeq⟩)
      exact hnk a ha (beq_iff_eq.mpr he)
    · intro kv hm
      rcases List.mem_append.mp hm with hm1 | hm1
      · exact h2 kv hm1
      · rw [List.mem_singleton.mp hm1]
        exact List.cons_ne_nil v []

/-- The `parse_qs` fold preserves the dictionary invariants. -/
theorem foldl_add_pair_inv (pairs : List (PyStr × PyStr))
    (d : List (PyStr × List PyStr))
    (h1 : d.Pairwise (fun a b => a.1 ≠ b.1)) (h2 : ∀ kv ∈ d, kv.2 ≠ []) :
    (pairs.foldl (fun d kv => add_pair d kv.1 kv.2) d).Pairwise
        (fun a b => a.1 ≠ b.1) ∧
      ∀ kv ∈ pairs.foldl (fun d kv => add_pair d kv.1 kv.2) d, kv.2 ≠ [] := by
  induction pairs generalizing d with
  | nil => exact ⟨h1, h2⟩
  | cons p rest ih =>
    rw [List.foldl_cons]
    obtain ⟨g1, g2⟩ := add_pair_inv d p.1 p.2 h1 h2
    exact ih (add_pair d p.1 p.2) g1 g2

/-- `parse_qs` output has pairwise-distinct keys and non-empty value lists. -/
theorem parse_qs_inv (qs : PyStr) :
    (parse_qs qs).Pairwise (fun a b => a.1 ≠ b.1) ∧
      ∀ kv ∈ parse_qs qs, kv.2 ≠ [] := by
  rw [parse_qs]
  exact foldl_add_pair_inv (parse_qsl qs) [] List.Pairwise.nil (by intro kv h; cases h)

/-- `parse_qs` inverts `urlencode` on a well-formed dictionary. -/
theorem parse_qs_urlencode (l : List (PyStr × List PyStr))
    (h1 : l.Pairwise (fun a b => a.1 ≠ b.1)) (h2 : ∀ kv ∈ l, kv.2 ≠ []) :
    parse_qs (urlencode l) = l := by
  rw [parse_qs, parse_qsl_urlencode]
  have := add_pair_fold_flat l [] (by rw [List.nil_append]; exact h1) h2
  rw [List.nil_append] at this
  exact this

/-- Membership in an `&`-join comes from a chunk or is the separator. -/
theorem join_amp_mem (parts : List PyStr) (c : Char) (hc : c ∈ join_amp parts) :
    c = '&' ∨ ∃ p ∈ parts, c ∈ p := by
  induction parts with
  | nil => cases hc
  | cons p ps ih =>
    cases ps with
    | nil => exact Or.inr ⟨p, List.mem_cons_self p [], hc⟩
    | cons q qs =>
      rw [join_amp] at hc
      rcases List.mem_append.mp hc with hm | hm
      · exact Or.inr ⟨p, List.mem_cons_self p (q :: qs), hm⟩
      · rcases List.mem_cons.mp hm with he | hm2
        · exact Or.inl he
        · rcases ih hm2 with he | ⟨r, hr, hcr⟩
          · exact Or.inl he
          · exact Or.inr ⟨r, List.mem_cons_of_mem p hr, hcr⟩

/-- Every character of an `urlencode` output is hash-free and survives the
URL byte cleaning. -/
theorem urlencode_chars (l : List (PyStr × List PyStr)) :
    ∀ c ∈ urlencode l, c ≠ '#' ∧ keep_char c = true := by
  intro c hc
  rw [urlencode] at hc
  rcases join_amp_mem _ c hc with he | ⟨p, hp, hcp⟩
  · rw [he]
    exact ⟨by decide, by decide⟩
  · obtain ⟨k, v, hkv⟩ := urlencode_parts_mem l p hp
    rw [hkv] at hcp
    rcases List.mem_append.mp hcp with hm | hm
    · have := quote_plus_bytes_chars _ (utf8_encode_lt k) c hm
      exact ⟨this.2.2.1, this.2.2.2.1⟩
    · rcases List.mem_cons.mp hm with he | hm2
      · rw [he]
        exact ⟨by decide, by decide⟩
      · have := quote_plus_bytes_chars _ (utf8_encode_lt v) c hm2
        exact ⟨this.2.2.1, this.2.2.2.1⟩

/-! ### Scheme character classes under lower-casing -/

/-- Code-point reading of `is_alpha`. -/
theorem is_alpha_toNat (c : Char) (h : is_alpha c = true) :
    (97 ≤ c.toNat ∧ c.toNat ≤ 122) ∨ (65 ≤ c.toNat ∧ c.toNat ≤ 90) := by
  simp only [is_alpha, Bool.or_eq_true, Bool.and_eq_true_iff, decide_eq_true_eq] at h
  rcases h with ⟨h1, h2⟩ | ⟨h1, h2⟩
  · exact Or.inl ⟨h1, h2⟩
  · exact Or.inr ⟨h1, h2⟩

/-- `is_alpha` from a code-point bound. -/
theorem is_alpha_of_toNat (c : Char)
    (h : (97 ≤ c.toNat ∧ c.toNat ≤ 122) ∨ (65 ≤ c.toNat ∧ c.toNat ≤ 90)) :
    is_alpha c = true := by
  simp only [is_alpha, Bool.or_eq_true, Bool.and_eq_true_iff, decide_eq_true_eq]
  rcases h with ⟨h1, h2⟩ | ⟨h1, h2⟩
  · exact Or.inl ⟨h1, h2⟩
  · exact Or.inr ⟨h1, h2⟩

/-- `is_alpha` survives lower-casing. -/
theorem is_alpha_toLower (c : Char) (h : is_alpha c = true) :
    is_alpha (Char.toLower c) = true := by
  have ht := toLower_toNat c
  apply is_alpha_of_toNat
  rcases is_alpha_toNat c h with ⟨h1, h2⟩ | ⟨h1, h2⟩
  · rw [if_neg (by omega)] at ht
    omega
  · rw [if_pos (by omega)] at ht
    omega

/-- Code-point reading of `scheme_char`. -/
theorem scheme_char_toNat (c : Char) (h : scheme_char c = true) :
    (97 ≤ c.toNat ∧ c.toNat ≤ 122) ∨ (65 ≤ c.toNat ∧ c.toNat ≤ 90) ∨
      (48 ≤ c.toNat ∧ c.toNat ≤ 57) ∨ c.toNat = 43 ∨ c.toNat = 45 ∨ c.toNat = 46 := by
  simp only [scheme_char, Bool.or_eq_true, Bool.and_eq_true_iff, decide_eq_true_eq,
    beq_iff_eq] at h
  rcases h with ((((⟨h1, h2⟩ | ⟨h1, h2⟩) | ⟨h1, h2⟩) | he) | he) | he
  · exact Or.inl ⟨h1, h2⟩
  · exact Or.inr (Or.inl ⟨h1, h2⟩)
  · exact Or.inr (Or.inr (Or.inl ⟨h1, h2⟩))
  · rw [he]
    exact Or.inr (Or.inr (Or.inr (Or.inl rfl)))
  · rw [he]
    exact Or.inr (Or.inr (Or.inr (Or.inr (Or.inl rfl))))
  · rw [he]
    exact Or.inr (Or.inr (Or.inr (Or.inr (Or.inr rfl))))

/-- `scheme_char` from a code-point bound. -/
theorem scheme_char_of_toNat (c : Char)
    (h : (97 ≤ c.toNat ∧ c.toNat ≤ 122) ∨ (65 ≤ c.toNat ∧ c.toNat ≤ 90) ∨
      (48 ≤ c.toNat ∧ c.toNat ≤ 57) ∨ c.toNat = 43 ∨ c.toNat = 45 ∨ c.toNat = 46) :
    scheme_char c = true := by
  simp only [scheme_char, Bool.or_eq_true, Bool.and_eq_true_iff, decide_eq_true_eq,
    beq_iff_eq]
  rcases h with ⟨h1, h2⟩ | ⟨h1, h2⟩ | ⟨h1, h2⟩ | he | he | he
  · exact Or.inl (Or.inl (Or.inl (Or.inl (Or.inl ⟨h1, h2⟩))))
  · exact Or.inl (Or.inl (Or.inl (Or.inl (Or.inr ⟨h1, h2⟩))))
  · exact Or.inl (Or.inl (Or.inl (Or.inr ⟨h1, h2⟩)))
  · exact Or.inl (Or.inl (Or.inr (char_eq_of_toNat c '+' he)))
  · exact Or.inl (Or.inr (char_eq_of_toNat c '-' he))
  · exact Or.inr (char_eq_of_toNat c '.' he)

/-- `scheme_char` survives lower-casing. -/
theorem scheme_char_toLower (c : Char) (h : scheme_char c = true) :
    scheme_char (Char.toLower c) = true := by
  have ht := toLower_toNat c
  apply scheme_char_of_toNat
  rcases scheme_char_toNat c h with hc | hc | hc | hc | hc | hc
  · rw [if_neg (by omega)] at ht
    omega
  · rw [if_pos (by omega)] at ht
    omega
  · rw [if_neg (by omega)] at ht
    omega
  · rw [if_neg (by omega)] at ht
    omega
  · rw [if_neg (by omega)] at ht
    omega
  · rw [if_neg (by omega)] at ht
    omega

/-- A scheme character survives the URL byte cleaning and is printable. -/
theorem scheme_char_keep (c : Char) (h : scheme_char c = true) :
    keep_char c = true ∧ 32 < c.toNat ∧ c ≠ ':' ∧ c ≠ '/' := by
  have hc := scheme_char_toNat c h
  refine ⟨?_, by omega, ?_, ?_⟩
  · simp only [keep_char, Bool.not_eq_true', Bool.or_eq_false_iff, beq_eq_false_iff_ne,
      ne_eq]
    omega
  · intro e
    rw [e] at hc
    revert hc
    decide
  · intro e
    rw [e] at hc
    revert hc
    decide

/-- `valid_scheme` survives lower-casing. -/
theorem valid_scheme_lower (s : PyStr) (h : valid_scheme s = true) :
    valid_scheme (lowerStr s) = true := by
  cases s with
  | nil => exact absurd h (by decide)
  | cons c rest =>
    rw [valid_scheme, Bool.and_eq_true_iff] at h
    obtain ⟨ha, hall⟩ := h
    rw [lowerStr, List.map_cons, valid_scheme, Bool.and_eq_true_iff]
    refine ⟨is_alpha_toLower c ha, ?_⟩
    rw [← List.map_cons, List.all_eq_true]
    intro x hx
    obtain ⟨c0, hc0, he⟩ := List.mem_map.mp hx
    rw [← he]
    exact scheme_char_toLower c0 (List.all_eq_true.mp hall c0 hc0)

/-- Characters of a valid scheme are scheme characters. -/
theorem valid_scheme_chars (s : PyStr) (h : valid_scheme s = true) :
    ∀ c ∈ s, scheme_char c = true := by
  cases s with
  | nil => intro c hc; cases hc
  | cons c rest =>
    rw [valid_scheme, Bool.and_eq_true_iff] at h
    exact fun x hx => List.all_eq_true.mp h.2 x hx

/-! ### Soundness of the urlsplit embedding -/

/-- `pyUrlsplit` factors through `urlsplit_tail`. -/
theorem pyUrlsplit_eq (u : PyStr) :
    pyUrlsplit u =
      (match split_char ':' (clean_url u) with
       | some p =>
         if valid_scheme p.1 then urlsplit_tail (lowerStr p.1) p.2
         else urlsplit_tail [] (clean_url u)
       | none => urlsplit_tail [] (clean_url u)) := by
  cases hsc : split_char ':' (clean_url u) with
  | none =>
    rw [pyUrlsplit]
    simp only [hsc]
    rfl
  | some pr =>
    rw [pyUrlsplit]
    simp only [hsc]
    by_cases hvs : valid_scheme pr.1 = true
    · rw [if_pos hvs, if_pos hvs]
      rfl
    · rw [if_neg hvs, if_neg hvs]
      rfl

/-- Facts about one first-occurrence split stage with identity fallback. -/
theorem split_stage (sep : Char) (s : PyStr) :
    sep ∉ (match split_char sep s with | some p => p | none => (s, [])).1 ∧
    (∀ c ∈ (match split_char sep s with | some p => p | none => (s, [])).1, c ∈ s) ∧
    (∀ c ∈ (match split_char sep s with | some p => p | none => (s, [])).2, c ∈ s) ∧
    (∀ d t, (match split_char sep s with | some p => p | none => (s, [])).1 = d :: t →
      ∃ t2, s = d :: t2) := by
  cases hs : split_char sep s with
  | none =>
    simp only [hs]
    refine ⟨(split_char_eq_none sep s).mp hs, fun c hc => hc, ?_, ?_⟩
    · intro c hc
      cases hc
    · intro d t he
      exact ⟨t, he⟩
  | some p =>
    simp only [hs]
    obtain ⟨hseq, hsfree⟩ := split_char_sound sep s p.1 p.2 hs
    refine ⟨hsfree, ?_, ?_, ?_⟩
    · intro c hc
      rw [hseq]
      exact List.mem_append.mpr (Or.inl hc)
    · intro c hc
      rw [hseq]
      exact List.mem_append.mpr (Or.inr (List.mem_cons_of_mem sep hc))
    · intro d t he
      rw [hseq, he]
      exact ⟨t ++ sep :: p.2, rfl⟩

/-- Soundness of the tail of `pyUrlsplit`: component character sets, the
bracket check, the leading slash of the path, and the empty params. -/
theorem urlsplit_tail_sound (s0 u2 : PyStr) (r : UrlParseResult)
    (hu2 : ∀ c ∈ u2, keep_char c = true)
    (h : urlsplit_tail s0 u2 = some r) :
    r.scheme = s0 ∧
    (∀ c ∈ r.netloc, ¬ (c = '/' ∨ c = '?' ∨ c = '#')) ∧
    ((r.netloc.contains '[' && !(r.netloc.contains ']')
        || (r.netloc.contains ']' && !(r.netloc.contains '['))) = false) ∧
    (∀ c ∈ r.path, c ≠ '?' ∧ c ≠ '#') ∧
    (∀ c ∈ r.query, c ≠ '#') ∧
    (r.netloc ≠ [] → r.path = [] ∨ startswith r.path (pstr ("/")) = true) ∧
    (∀ c ∈ r.netloc, keep_char c = true) ∧
    (∀ c ∈ r.path, keep_char c = true) ∧
    (∀ c ∈ r.query, keep_char c = true) ∧
    r.params = [] := by
  rw [urlsplit_tail] at h
  simp only [] at h
  by_cases hsw : startswith u2 (pstr ("//")) = true
  · rw [if_pos hsw] at h
    obtain ⟨hteq, htfree, hthead⟩ := take_until_sound (u2.drop 2)
    have hmem1 : ∀ c ∈ (take_until_delims (u2.drop 2)).1, c ∈ u2 := by
      intro c hc
      exact List.drop_subset 2 u2 (by rw [hteq]; exact List.mem_append.mpr (Or.inl hc))
    have hmem2 : ∀ c ∈ (take_until_delims (u2.drop 2)).2, c ∈ u2 := by
      intro c hc
      exact List.drop_subset 2 u2 (by rw [hteq]; exact List.mem_append.mpr (Or.inr hc))
    by_cases hbr : ((take_until_delims (u2.drop 2)).1.contains '[' &&
        !((take_until_delims (u2.drop 2)).1.contains ']')
        || ((take_until_delims (u2.drop 2)).1.contains ']' &&
          !((take_until_delims (u2.drop 2)).1.contains '['))) = true
    · rw [if_pos hbr] at h
      cases h
    · rw [if_neg hbr] at h
      have hbr2 := Bool.not_eq_true _ ▸ hbr
      cases hfp : split_char '#' (take_until_delims (u2.drop 2)).2 with
      | none =>
        simp only [hfp] at h
        have hnh := (split_char_eq_none '#' _).mp hfp
        cases hqp : split_char '?' (take_until_delims (u2.drop 2)).2 with
        | none =>
          simp only [hqp] at h
          have hnq := (split_char_eq_none '?' _).mp hqp
          obtain rfl : (⟨s0, (take_until_delims (u2.drop 2)).1,
              (take_until_delims (u2.drop 2)).2, [], [], []⟩ : UrlParseResult) = r :=
            (Option.some.injEq _ _).mp h
          refine ⟨rfl, htfree, ?_, ?_, ?_, ?_, ?_, ?_, ?_, rfl⟩
          · exact hbr2
          · exact fun c hc => ⟨fun e => hnq (e ▸ hc), fun e => hnh (e ▸ hc)⟩
          · intro c hc
            cases hc
          · intro _
            show (take_until_delims (u2.drop 2)).2 = [] ∨
              startswith (take_until_delims (u2.drop 2)).2 (pstr ("/")) = true
            cases hp : (take_until_delims (u2.drop 2)).2 with
            | nil => exact Or.inl rfl
            | cons d t =>
              right
              rcases hthead d t hp with he | he | he
              · rw [he, startswith, show pstr ("/") = ['/'] from rfl]
                simp [List.isPrefixOf]
              · exact absurd (he ▸ hp ▸ List.mem_cons_self d t) hnq
              · exact absurd (he ▸ hp ▸ List.mem_cons_self d t) hnh
          · exact fun c hc => hu2 c (hmem1 c hc)
          · exact fun c hc => hu2 c (hmem2 c hc)
          · intro c hc
            cases hc
        | some pq =>
          simp only [hqp] at h
          obtain ⟨hqeq, hqfree⟩ := split_char_sound '?' _ pq.1 pq.2 hqp
          obtain rfl : (⟨s0, (take_until_delims (u2.drop 2)).1, pq.1, [], pq.2, []⟩ :
              UrlParseResult) = r := (Option.some.injEq _ _).mp h
          have hq1mem : ∀ c ∈ pq.1, c ∈ (take_until_delims (u2.drop 2)).2 := by
            intro c hc
            rw [hqeq]
            exact List.mem_append.mpr (Or.inl hc)
          have hq2mem : ∀ c ∈ pq.2, c ∈ (take_until_delims (u2.drop 2)).2 := by
            intro c hc
            rw [hqeq]
            exact List.mem_append.mpr (Or.inr (List.mem_cons_of_mem '?' hc))
          refine ⟨rfl, htfree, ?_, ?_, ?_, ?_, ?_, ?_, ?_, rfl⟩
          · exact hbr2
          · exact fun c hc => ⟨fun e => hqfree (e ▸ hc), fun e => hnh (e ▸ hq1mem c hc)⟩
          · exact fun c hc e => hnh (e ▸ hq2mem c hc)
          · intro _
            show pq.1 = [] ∨ startswith pq.1 (pstr ("/")) = true
            cases hp : pq.1 with
            | nil => exact Or.inl rfl
            | cons d t =>
              right
              have hd : d ∈ pq.1 := hp ▸ List.mem_cons_self d t
              obtain ⟨t2, ht2⟩ : ∃ t2, (take_until_delims (u2.drop 2)).2 = d :: t2 := by
                rw [hqeq, hp]
                exact ⟨t ++ '?' :: pq.2, rfl⟩
              rcases hthead d t2 ht2 with he | he | he
              · rw [he, startswith, show pstr ("/") = ['/'] from rfl]
                simp [List.isPrefixOf]
              · exact absurd (he ▸ hd) hqfree
              · exact absurd (he ▸ hq1mem d hd) hnh
          · exact fun c hc => hu2 c (hmem1 c hc)
          · exact fun c hc => hu2 c (hmem2 c (hq1mem c hc))
          · exact fun c hc => hu2 c (hmem2 c (hq2mem c hc))
      | some pf =>
        simp only [hfp] at h
        obtain ⟨hfeq, hffree⟩ := split_char_sound '#' _ pf.1 pf.2 hfp
        have hf1mem : ∀ c ∈ pf.1, c ∈ (take_until_delims (u2.drop 2)).2 := by
          intro c hc
          rw [hfeq]
          exact List.mem_append.mpr (Or.inl hc)
        cases hqp : split_char '?' pf.1 with
        | none =>
          simp only [hqp] at h
          have hnq := (split_char_eq_none '?' _).mp hqp
          obtain rfl : (⟨s0, (take_until_delims (u2.drop 2)).1, pf.1, [], [], pf.2⟩ :
              UrlParseResult) = r := (Option.some.injEq _ _).mp h
          refine ⟨rfl, htfree, ?_, ?_, ?_, ?_, ?_, ?_, ?_, rfl⟩
          · exact hbr2
          · exact fun c hc => ⟨fun e => hnq (e ▸ hc), fun e => hffree (e ▸ hc)⟩
          · intro c hc
            cases hc
          · intro _
            show pf.1 = [] ∨ startswith pf.1 (pstr ("/")) = true
            cases hp : pf.1 with
            | nil => exact Or.inl rfl
            | cons d t =>
              right
              have hd : d ∈ pf.1 := hp ▸ List.mem_cons_self d t
              obtain ⟨t2, ht2⟩ : ∃ t2, (take_until_delims (u2.drop 2)).2 = d :: t2 := by
                rw [hfeq, hp]
                exact ⟨t ++ '#' :: pf.2, rfl⟩
              rcases hthead d t2 ht2 with he | he | he
              · rw [he, startswith, show pstr ("/") = ['/'] from rfl]
                simp [List.isPrefixOf]
              · exact absurd (he ▸ hd) hnq
              · exact absurd (he ▸ hd) hffree
          · exact fun c hc => hu2 c (hmem1 c hc)
          · exact fun c hc => hu2 c (hmem2 c (hf1mem c hc))
          · intro c hc
            cases hc
        | some pq =>
          simp only [hqp] at h
          obtain ⟨hqeq, hqfree⟩ := split_char_sound '?' _ pq.1 pq.2 hqp
          obtain rfl : (⟨s0, (take_until_delims (u2.drop 2)).1, pq.1, [], pq.2, pf.2⟩ :
              UrlParseResult) = r := (Option.some.injEq _ _).mp h
          have hq1mem : ∀ c ∈ pq.1, c ∈ pf.1 := by
            intro c hc
            rw [hqeq]
            exact List.mem_append.mpr (Or.inl hc)
          have hq2mem : ∀ c ∈ pq.2, c ∈ pf.1 := by
            intro c hc
            rw [hqeq]
            exact List.mem_append.mpr (Or.inr (List.mem_cons_of_mem '?' hc))
          refine ⟨rfl, htfree, ?_, ?_, ?_, ?_, ?_, ?_, ?_, rfl⟩
          · exact hbr2
          · exact fun c hc => ⟨fun e => hqfree (e ▸ hc),
              fun e => hffree (e ▸ hq1mem c hc)⟩
          · exact fun c hc e => hffree (e ▸ hq2mem c hc)
          · intro _
            show pq.1 = [] ∨ startswith pq.1 (pstr ("/")) = true
            cases hp : pq.1 with
            | nil => exact Or.inl rfl
            | cons d t =>
              right
              have hd : d ∈ pq.1 := hp ▸ List.mem_cons_self d t
              obtain ⟨t2, ht2⟩ : ∃ t2, (take_until_delims (u2.drop 2)).2 = d :: t2 := by
                rw [hfeq, hqeq, hp]
                exact ⟨t ++ '?' :: pq.2 ++ '#' :: pf.2, by simp⟩
              rcases hthead d t2 ht2 with he | he | he
              · rw [he, startswith, show pstr ("/") = ['/'] from rfl]
                simp [List.isPrefixOf]
              · exact absurd (he ▸ hd) hqfree
              · exact absurd (he ▸ hq1mem d hd) hffree
          · exact fun c hc => hu2 c (hmem1 c hc)
          · exact fun c hc => hu2 c (hmem2 c (hf1mem c (hq1mem c hc)))
          · exact fun c hc => hu2 c (hmem2 c (hf1mem c (hq2mem c hc)))
  · rw [if_neg hsw] at h
    simp only [] at h
    have hbrnil : ((([] : PyStr).contains '[' && !(([] : PyStr).contains ']'))
        || (([] : PyStr).contains ']' && !(([] : PyStr).contains '['))) = false := by
      decide
    rw [if_neg (by rw [hbrnil]; exact Bool.false_ne_true)] at h
    cases hfp : split_char '#' u2 with
    | none =>
      simp only [hfp] at h
      have hnh := (split_char_eq_none '#' _).mp hfp
      cases hqp : split_char '?' u2 with
      | none =>
        simp only [hqp] at h
        have hnq := (split_char_eq_none '?' _).mp hqp
        obtain rfl : (⟨s0, [], u2, [], [], []⟩ : UrlParseResult) = r :=
          (Option.some.injEq _ _).mp h
        refine ⟨rfl, ?_, hbrnil, ?_, ?_, ?_, ?_, hu2, ?_⟩
        · intro c hc
          cases hc
        · exact fun c hc => ⟨fun e => hnq (e ▸ hc), fun e => hnh (e ▸ hc)⟩
        · intro c hc
          cases hc
        · intro hne
          exact absurd rfl hne
        · intro c hc
          cases hc
        · exact ⟨fun c hc => (nomatch hc), rfl⟩
      | some pq =>
        simp only [hqp] at h
        obtain ⟨hqeq, hqfree⟩ := split_char_sound '?' _ pq.1 pq.2 hqp
        obtain rfl : (⟨s0, [], pq.1, [], pq.2, []⟩ : UrlParseResult) = r :=
          (Option.some.injEq _ _).mp h
        have hq1mem : ∀ c ∈ pq.1, c ∈ u2 := by
          intro c hc
          rw [hqeq]
          exact List.mem_append.mpr (Or.inl hc)
        have hq2mem : ∀ c ∈ pq.2, c ∈ u2 := by
          intro c hc
          rw [hqeq]
          exact List.mem_append.mpr (Or.inr (List.mem_cons_of_mem '?' hc))
        refine ⟨rfl, ?_, hbrnil, ?_, ?_, ?_, ?_, ?_, ?_⟩
        · intro c hc
          cases hc
        · exact fun c hc => ⟨fun e => hqfree (e ▸ hc), fun e => hnh (e ▸ hq1mem c hc)⟩
        · exact fun c hc e => hnh (e ▸ hq2mem c hc)
        · intro hne
          exact absurd rfl hne
        · intro c hc
          cases hc
        · exact fun c hc => hu2 c (hq1mem c hc)
        · exact ⟨fun c hc => hu2 c (hq2mem c hc), rfl⟩
    | some pf =>
      simp only [hfp] at h
      obtain ⟨hfeq, hffree⟩ := split_char_sound '#' _ pf.1 pf.2 hfp
      have hf1mem : ∀ c ∈ pf.1, c ∈ u2 := by
        intro c hc
        rw [hfeq]
        exact List.mem_append.mpr (Or.inl hc)
      cases hqp : split_char '?' pf.1 with
      | none =>
        simp only [hqp] at h
        have hnq := (split_char_eq_none '?' _).mp hqp
        obtain rfl : (⟨s0, [], pf.1, [], [], pf.2⟩ : UrlParseResult) = r :=
          (Option.some.injEq _ _).mp h
        refine ⟨rfl, ?_, hbrnil, ?_, ?_, ?_, ?_, ?_, ?_⟩
        · intro c hc
          cases hc
        · exact fun c hc => ⟨fun e => hnq (e ▸ hc), fun e => hffree (e ▸ hc)⟩
        · intro c hc
          cases hc
        · intro hne
          exact absurd rfl hne
        · intro c hc
          cases hc
        · exact fun c hc => hu2 c (hf1mem c hc)
        · exact ⟨fun c hc => (nomatch hc), rfl⟩
      | some pq =>
        simp only [hqp] at h
        obtain ⟨hqeq, hqfree⟩ := split_char_sound '?' _ pq.1 pq.2 hqp
        obtain rfl : (⟨s0, [], pq.1, [], pq.2, pf.2⟩ : UrlParseResult) = r :=
          (Option.some.injEq _ _).mp h
        have hq1mem : ∀ c ∈ pq.1, c ∈ pf.1 := by
          intro c hc
          rw [hqeq]
          exact List.mem_append.mpr (Or.inl hc)
        have hq2mem : ∀ c ∈ pq.2, c ∈ pf.1 := by
          intro c hc
          rw [hqeq]
          exact List.mem_append.mpr (Or.inr (List.mem_cons_of_mem '?' hc))
        refine ⟨rfl, ?_, hbrnil, ?_, ?_, ?_, ?_, ?_, ?_⟩
        · intro c hc
          cases hc
        · exact fun c hc => ⟨fun e => hqfree (e ▸ hc),
            fun e => hffree (e ▸ hq1mem c hc)⟩
        · exact fun c hc e => hffree (e ▸ hq2mem c hc)
        · intro hne
          exact absurd rfl hne
        · intro c hc
          cases hc
        · exact fun c hc => hu2 c (hf1mem c (hq1mem c hc))
        · exact ⟨fun c hc => hu2 c (hf1mem c (hq2mem c hc)), rfl⟩

/-- Full soundness of `pyUrlsplit`. -/
theorem pyUrlsplit_sound (u : PyStr) (r : UrlParseResult) (h : pyUrlsplit u = some r) :
    (r.scheme = [] ∨ (valid_scheme r.scheme = true ∧ lowerStr r.scheme = r.scheme)) ∧
    (∀ c ∈ r.netloc, ¬ (c = '/' ∨ c = '?' ∨ c = '#')) ∧
    ((r.netloc.contains '[' && !(r.netloc.contains ']')
        || (r.netloc.contains ']' && !(r.netloc.contains '['))) = false) ∧
    (∀ c ∈ r.path, c ≠ '?' ∧ c ≠ '#') ∧
    (∀ c ∈ r.query, c ≠ '#') ∧
    (r.netloc ≠ [] → r.path = [] ∨ startswith r.path (pstr ("/")) = true) ∧
    (∀ c ∈ r.netloc, keep_char c = true) ∧
    (∀ c ∈ r.path, keep_char c = true) ∧
    (∀ c ∈ r.query, keep_char c = true) ∧
    r.params = [] := by
  rw [pyUrlsplit_eq] at h
  have hcl : ∀ c ∈ clean_url u, keep_char c = true := fun c hc =>
    (List.mem_filter.mp hc).2
  cases hsc : split_char ':' (clean_url u) with
  | none =>
    simp only [hsc] at h
    obtain ⟨h1, h2, h3, h4, h5, h6, h7, h8, h9, h10⟩ :=
      urlsplit_tail_sound [] (clean_url u) r hcl h
    exact ⟨Or.inl h1, h2, h3, h4, h5, h6, h7, h8, h9, h10⟩
  | some pr =>
    simp only [hsc] at h
    by_cases hvs : valid_scheme pr.1 = true
    · rw [if_pos hvs] at h
      obtain ⟨hceq, _⟩ := split_char_sound ':' _ pr.1 pr.2 hsc
      have hp2 : ∀ c ∈ pr.2, keep_char c = true := fun c hc =>
        hcl c (by rw [hceq]; exact List.mem_append.mpr (Or.inr (List.mem_cons_of_mem ':' hc)))
      obtain ⟨h1, h2, h3, h4, h5, h6, h7, h8, h9, h10⟩ :=
        urlsplit_tail_sound (lowerStr pr.1) pr.2 r hp2 h
      refine ⟨Or.inr ⟨?_, ?_⟩, h2, h3, h4, h5, h6, h7, h8, h9, h10⟩
      · rw [h1]
        exact valid_scheme_lower pr.1 hvs
      · rw [h1]
        exact lowerStr_idem pr.1
    · rw [if_neg hvs] at h
      obtain ⟨h1, h2, h3, h4, h5, h6, h7, h8, h9, h10⟩ :=
        urlsplit_tail_sound [] (clean_url u) r hcl h
      exact ⟨Or.inl h1, h2, h3, h4, h5, h6, h7, h8, h9, h10⟩

/-- `split_last` misses when the separator is absent (introduction form). -/
theorem split_last_none_of_not_mem (sep : Char) (s : PyStr) (h : sep ∉ s) :
    split_last sep s = none := by
  cases hs : split_last sep s with
  | none => rfl
  | some p =>
    exfalso
    apply h
    rw [(split_last_sound sep s p.1 p.2 hs).1]
    exact List.mem_append_right p.1 (List.mem_cons_self sep p.2)

/-- Soundness of `splitparams`: both parts draw from the input, the params
have no slash, and the path part has no semicolon in its last segment. -/
theorem splitparams_facts (url : PyStr) :
    (∀ c ∈ (splitparams url).1, c ∈ url) ∧
    (∀ c ∈ (splitparams url).2, c ∈ url) ∧
    ('/') ∉ (splitparams url).2 ∧
    (∀ a b, split_last '/' (splitparams url).1 = some (a, b) → (';') ∉ b) ∧
    (split_last '/' (splitparams url).1 = none → (';') ∉ (splitparams url).1) ∧
    (startswith url (pstr ("/")) = true →
      startswith (splitparams url).1 (pstr ("/")) = true) := by
  cases hsl : split_last '/' url with
  | some p =>
    obtain ⟨hleq, hlfree⟩ := split_last_sound '/' url p.1 p.2 hsl
    cases hsq : split_char ';' p.2 with
    | some q =>
      obtain ⟨hqeq, hqfree⟩ := split_char_sound ';' p.2 q.1 q.2 hsq
      have hsp : splitparams url = (p.1 ++ '/' :: q.1, q.2) := by
        rw [splitparams]
        simp only [hsl, hsq]
      rw [hsp]
      have hq1sub : ∀ c ∈ q.1, c ∈ p.2 := by
        intro c hc
        rw [hqeq]
        exact List.mem_append.mpr (Or.inl hc)
      have hq2sub : ∀ c ∈ q.2, c ∈ p.2 := by
        intro c hc
        rw [hqeq]
        exact List.mem_append.mpr (Or.inr (List.mem_cons_of_mem ';' hc))
      have hnoslashq1 : ('/') ∉ q.1 := fun hm => hlfree (hq1sub '/' hm)
      refine ⟨?_, ?_, ?_, ?_, ?_, ?_⟩
      · intro c hc
        rw [hleq]
        rcases List.mem_append.mp hc with hm | hm
        · exact List.mem_append.mpr (Or.inl hm)
        · rcases List.mem_cons.mp hm with he | hm2
          · exact List.mem_append.mpr (Or.inr (he ▸ List.mem_cons_self '/' p.2))
          · exact List.mem_append.mpr
              (Or.inr (List.mem_cons_of_mem '/' (hq1sub c hm2)))
      · intro c hc
        rw [hleq]
        exact List.mem_append.mpr (Or.inr (List.mem_cons_of_mem '/' (hq2sub c hc)))
      · exact fun hm => hlfree (hq2sub '/' hm)
      · intro a b hab
        rw [split_last_append '/' p.1 q.1 hnoslashq1] at hab
        simp only [Option.some.injEq, Prod.mk.injEq] at hab
        rw [← hab.2]
        exact hqfree
      · intro hnone
        rw [split_last_append '/' p.1 q.1 hnoslashq1] at hnone
        cases hnone
      · intro hsw
        obtain ⟨rr, hrr⟩ := startswith_ex url (pstr ("/")) hsw
        cases hp1 : p.1 with
        | nil =>
          rw [List.nil_append, startswith, show pstr ("/") = ['/'] from rfl]
          simp [List.isPrefixOf]
        | cons c t =>
          have hc2 : c = '/' := by
            have h2 := hleq
            rw [hp1, hrr] at h2
            exact (List.cons.injEq '/' rr c (t ++ '/' :: p.2)).mp h2 |>.1 |>.symm
          rw [List.cons_append, hc2, startswith, show pstr ("/") = ['/'] from rfl]
          simp [List.isPrefixOf]
    | none =>
      have hnsq := (split_char_eq_none ';' p.2).mp hsq
      have hsp : splitparams url = (url, []) := by
        rw [splitparams]
        simp only [hsl, hsq]
      rw [hsp]
      refine ⟨fun c hc => hc, ?_, ?_, ?_, ?_, fun hsw => hsw⟩
      · intro c hc
        cases hc
      · intro hm
        cases hm
      · intro a b hab
        rw [hsl] at hab
        simp only [Option.some.injEq] at hab
        subst hab
        exact hnsq
      · intro hnone
        rw [hsl] at hnone
        cases hnone
  | none =>
    have hnsl := split_last_eq_none_aux '/' url hsl
    cases hsq : split_char ';' url with
    | some q =>
      obtain ⟨hqeq, hqfree⟩ := split_char_sound ';' url q.1 q.2 hsq
      have hsp : splitparams url = (q.1, q.2) := by
        rw [splitparams]
        simp only [hsl, hsq]
      rw [hsp]
      have hq1sub : ∀ c ∈ q.1, c ∈ url := by
        intro c hc
        rw [hqeq]
        exact List.mem_append.mpr (Or.inl hc)
      have hq2sub : ∀ c ∈ q.2, c ∈ url := by
        intro c hc
        rw [hqeq]
        exact List.mem_append.mpr (Or.inr (List.mem_cons_of_mem ';' hc))
      refine ⟨hq1sub, hq2sub, ?_, ?_, ?_, ?_⟩
      · exact fun hm => hnsl (hq2sub '/' hm)
      · intro a b hab
        rw [split_last_none_of_not_mem '/' q.1 (fun hm => hnsl (hq1sub '/' hm))] at hab
        cases hab
      · intro _
        exact hqfree
      · intro hsw
        exfalso
        obtain ⟨rr, hrr⟩ := startswith_ex url (pstr ("/")) hsw
        exact hnsl (hrr ▸ List.mem_cons_self '/' rr)
    | none =>
      have hnsq := (split_char_eq_none ';' url).mp hsq
      have hsp : splitparams url = (url, []) := by
        rw [splitparams]
        simp only [hsl, hsq]
      rw [hsp]
      refine ⟨fun c hc => hc, ?_, ?_, ?_, ?_, fun hsw => hsw⟩
      · intro c hc
        cases hc
      · intro hm
        cases hm
      · intro a b hab
        rw [hsl] at hab
        cases hab
      · intro _
        exact hnsq

/-- Full soundness of `pyUrlparse`: everything the unparse/reparse round
trip needs to know about the components. -/
theorem pyUrlparse_sound (u : PyStr) (p : UrlParseResult) (h : pyUrlparse u = some p) :
    (p.scheme = [] ∨ (valid_scheme p.scheme = true ∧ lowerStr p.scheme = p.scheme)) ∧
    (∀ c ∈ p.netloc, ¬ (c = '/' ∨ c = '?' ∨ c = '#')) ∧
    ((p.netloc.contains '[' && !(p.netloc.contains ']')
        || (p.netloc.contains ']' && !(p.netloc.contains '['))) = false) ∧
    (∀ c ∈ p.path, c ≠ '?' ∧ c ≠ '#') ∧
    (∀ c ∈ p.params, c ≠ '?' ∧ c ≠ '#' ∧ c ≠ '/') ∧
    (∀ c ∈ p.query, c ≠ '#') ∧
    (p.netloc ≠ [] → p.path = [] ∨ startswith p.path (pstr ("/")) = true) ∧
    (∀ a b, split_last '/' p.path = some (a, b) → (';') ∉ b) ∧
    (split_last '/' p.path = none → (';') ∉ p.path) ∧
    (∀ c ∈ p.netloc, keep_char c = true) ∧
    (∀ c ∈ p.path, keep_char c = true) ∧
    (∀ c ∈ p.params, keep_char c = true) ∧
    (∀ c ∈ p.query, keep_char c = true) := by
  rw [pyUrlparse] at h
  cases hs : pyUrlsplit u with
  | none =>
    rw [hs] at h
    cases h
  | some r =>
    rw [hs] at h
    simp only [Option.map_some', Option.some.injEq] at h
    obtain ⟨s1, s2, s3, s4, s5, s6, s7, s8, s9, s10⟩ := pyUrlsplit_sound u r hs
    by_cases hsemi : r.path.contains ';' = true
    · rw [if_pos hsemi] at h
      obtain ⟨f1, f2, f3, f4, f5, f6⟩ := splitparams_facts r.path
      obtain rfl := h.symm
      refine ⟨s1, s2, s3, ?_, ?_, s5, ?_, f4, f5, s7, ?_, ?_, s9⟩
      · exact fun c hc => s4 c (f1 c hc)
      · exact fun c hc => ⟨(s4 c (f2 c hc)).1, (s4 c (f2 c hc)).2,
          fun e => f3 (e ▸ hc)⟩
      · intro hne
        rcases s6 hne with he | hsw
        · rw [he] at hsemi
          exact absurd hsemi (by decide)
        · exact Or.inr (f6 hsw)
      · exact fun c hc => s8 c (f1 c hc)
      · exact fun c hc => s8 c (f2 c hc)
    · rw [if_neg hsemi] at h
      subst h
      have hnos := fun hm => hsemi ((contains_iff _ ';').mpr hm)
      refine ⟨s1, s2, s3, s4, ?_, s5, s6, ?_, ?_, s7, s8, ?_, s9⟩
      · rw [s10]
        intro c hc
        cases hc
      · intro a b hab
        intro hm
        apply hnos
        rw [(split_last_sound '/' _ a b hab).1]
        exact List.mem_append_right a (List.mem_cons_of_mem '/' hm)
      · intro _
        exact hnos
      · rw [s10]
        intro c hc
        cases hc

/-- Splitting a freshly unsplit URL recovers the components, provided they
are shaped the way `pyUrlsplit` itself produces them. -/
theorem pyUrlsplit_unsplit (scheme netloc pp query : PyStr)
    (hvs : valid_scheme scheme = true)
    (hlow : lowerStr scheme = scheme)
    (hnet : netloc ≠ [])
    (hnetc : ∀ c ∈ netloc, ¬ (c = '/' ∨ c = '?' ∨ c = '#'))
    (hbr : ((netloc.contains '[' && !(netloc.contains ']')
        || (netloc.contains ']' && !(netloc.contains '['))) = false))
    (hpps : startswith pp (pstr ("/")) = true)
    (hppc : ∀ c ∈ pp, c ≠ '?' ∧ c ≠ '#')
    (hquery : ∀ c ∈ query, c ≠ '#')
    (hkeep : ∀ c, c ∈ netloc ++ pp ++ query → keep_char c = true) :
    pyUrlsplit (pyUrlunsplit scheme netloc pp query []) =
      some ⟨scheme, netloc, pp, [], query, []⟩ := by
  obtain ⟨c0, sr, hsch⟩ : ∃ c0 sr, scheme = c0 :: sr := by
    cases hs : scheme with
    | nil =>
      rw [hs] at hvs
      exact absurd hvs (by decide)
    | cons c0 sr => exact ⟨c0, sr, rfl⟩
  have hschc : ∀ c ∈ scheme, scheme_char c = true := valid_scheme_chars scheme hvs
  have hschne : scheme ≠ [] := by
    rw [hsch]
    exact List.cons_ne_nil c0 sr
  have hcolon : (':') ∉ scheme := fun hm => (scheme_char_keep ':' (hschc ':' hm)).2.2.1 rfl
  obtain ⟨ppr, hppr⟩ := startswith_ex pp (pstr ("/")) hpps
  have hppr2 : pp = '/' :: ppr := hppr
  have hppne : pp ≠ [] := by
    rw [hppr2]
    exact List.cons_ne_nil '/' ppr
  have hnq : ('?') ∉ pp := fun hm => (hppc '?' hm).1 rfl
  have hnh : ('#') ∉ pp := fun hm => (hppc '#' hm).2 rfl
  have hkn : ∀ c ∈ netloc, keep_char c = true := fun c hc =>
    hkeep c (List.mem_append.mpr (Or.inl (List.mem_append.mpr (Or.inl hc))))
  have hkp : ∀ c ∈ pp, keep_char c = true := fun c hc =>
    hkeep c (List.mem_append.mpr (Or.inl (List.mem_append.mpr (Or.inr hc))))
  have hkq : ∀ c ∈ query, keep_char c = true := fun c hc =>
    hkeep c (List.mem_append.mpr (Or.inr hc))
  have hks : ∀ c ∈ scheme, keep_char c = true := fun c hc =>
    (scheme_char_keep c (hschc c hc)).1
  have hvhead : ∀ (R : PyStr) (c : Char), (scheme ++ ':' :: R).head? = some c →
      32 < c.toNat := by
    intro R c hc
    rw [hsch] at hc
    simp only [List.cons_append, List.head?_cons, Option.some.injEq] at hc
    rw [← hc]
    exact (scheme_char_keep c0 (hschc c0 (hsch ▸ List.mem_cons_self c0 sr))).2.1
  have hv_keep : ∀ (R : PyStr), (∀ c ∈ R, keep_char c = true) →
      ∀ c ∈ scheme ++ ':' :: R, keep_char c = true := by
    intro R hR c hc
    rcases List.mem_append.mp hc with hm | hm
    · exact (scheme_char_keep c (hschc c hm)).1
    · rcases List.mem_cons.mp hm with he | hm2
      · rw [he]
        decide
      · exact hR c hm2
  have hrest_keep : ∀ (Q : PyStr), (∀ c ∈ Q, keep_char c = true) →
      ∀ c ∈ pstr ("//") ++ netloc ++ (pp ++ Q), keep_char c = true := by
    intro Q hQ c hc
    rcases List.mem_append.mp hc with hm | hm
    · rcases List.mem_append.mp hm with hm2 | hm2
      · rcases List.mem_cons.mp hm2 with he | hm3
        · rw [he]
          decide
        · rcases List.mem_cons.mp hm3 with he | hm4
          · rw [he]
            decide
          · cases hm4
      · exact hkn c hm2
    · rcases List.mem_append.mp hm with hm2 | hm2
      · exact hkp c hm2
      · exact hQ c hm2
  have hsplitcolon : ∀ (R : PyStr),
      split_char ':' (scheme ++ ':' :: R) = some (scheme, R) := fun R =>
    split_char_append ':' scheme R hcolon
  have htail_eval : ∀ (Q : PyStr), ('#') ∉ Q →
      split_char '#' (pp ++ Q) = none := by
    intro Q hQ
    apply (split_char_eq_none '#' (pp ++ Q)).mpr
    intro hm
    rcases List.mem_append.mp hm with hm1 | hm1
    · exact hnh hm1
    · exact hQ hm1
  have hmain : ∀ (Q : PyStr), (∀ c ∈ Q, keep_char c = true) → ('#') ∉ Q →
      (match split_char '?' (pp ++ Q) with
        | some p => p
        | none => (pp ++ Q, [])) = (pp, query) →
      pyUrlsplit (scheme ++ ':' :: (pstr ("//") ++ netloc ++ (pp ++ Q)))
        = some ⟨scheme, netloc, pp, [], query, []⟩ := by
    intro Q hQk hQh hQsplit
    have hcl : clean_url (scheme ++ ':' :: (pstr ("//") ++ netloc ++ (pp ++ Q)))
        = scheme ++ ':' :: (pstr ("//") ++ netloc ++ (pp ++ Q)) :=
      clean_url_eq _ (hvhead _) (hv_keep _ (hrest_keep Q hQk))
    rw [pyUrlsplit_eq, hcl, hsplitcolon (pstr ("//") ++ netloc ++ (pp ++ Q))]
    simp only []
    rw [if_pos hvs, hlow, urlsplit_tail]
    rw [List.append_assoc (pstr ("//")) netloc (pp ++ Q)]
    rw [if_pos (startswith_append (pstr ("//")) (netloc ++ (pp ++ Q)))]
    have hdrop : (pstr ("//") ++ (netloc ++ (pp ++ Q))).drop 2 = netloc ++ (pp ++ Q) :=
      rfl
    rw [hdrop, hppr2, List.cons_append,
      take_until_append netloc '/' (ppr ++ Q) hnetc (Or.inl rfl)]
    simp only []
    rw [if_neg (show ¬ ((netloc.contains '[' && !(netloc.contains ']')
        || (netloc.contains ']' && !(netloc.contains '['))) = true) from
      by rw [hbr]; exact Bool.false_ne_true)]
    rw [show ('/' :: (ppr ++ Q)) = pp ++ Q from by rw [hppr2, List.cons_append]]
    rw [htail_eval Q hQh]
    simp only []
    rw [hQsplit, ← hppr2]
  rw [pyUrlunsplit]
  rw [if_neg (show ¬ (([] : PyStr) ≠ []) from fun hcon => hcon rfl)]
  by_cases hq : query = []
  · rw [if_neg (show ¬ (query ≠ []) from fun hcon => hcon hq), if_pos hschne,
      if_pos (Or.inl hnet : netloc ≠ [] ∨ scheme ≠ [] ∧
        uses_netloc.contains scheme = true ∧ ¬ startswith pp (pstr ("//")) = true),
      if_neg (show ¬ (pp ≠ [] ∧ ¬ startswith pp (pstr ("/")) = true) from
        fun hcon => hcon.2 hpps)]
    rw [show pstr ("//") ++ netloc ++ pp = pstr ("//") ++ netloc ++ (pp ++ []) from
      by rw [List.append_nil]]
    apply hmain [] (fun c hc => nomatch hc) (fun hm => (nomatch hm : False))
    rw [List.append_nil, (split_char_eq_none '?' pp).mpr hnq, hq]
  · rw [if_pos (show query ≠ [] from hq), if_pos hschne,
      if_pos (Or.inl hnet : netloc ≠ [] ∨ scheme ≠ [] ∧
        uses_netloc.contains scheme = true ∧ ¬ startswith pp (pstr ("//")) = true),
      if_neg (show ¬ (pp ≠ [] ∧ ¬ startswith pp (pstr ("/")) = true) from
        fun hcon => hcon.2 hpps)]
    rw [List.append_assoc scheme (':' :: (pstr ("//") ++ netloc ++ pp)) ('?' :: query),
      List.cons_append, List.append_assoc (pstr ("//") ++ netloc) pp ('?' :: query)]
    apply hmain ('?' :: query)
    · intro c hc
      rcases List.mem_cons.mp hc with he | hm
      · rw [he]
        decide
      · exact hkq c hm
    · intro hm
      rcases List.mem_cons.mp hm with he | hm2
      · exact absurd he (by decide)
      · exact (hquery '#' hm2) rfl
    · rw [split_char_append '?' pp query hnq]

/-- A slash-headed string has a last slash. -/
theorem split_last_of_startswith (path : PyStr)
    (h : startswith path (pstr ("/")) = true) :
    ∃ a b, split_last '/' path = some (a, b) := by
  cases hs : split_last '/' path with
  | some p => exact ⟨p.1, p.2, rfl⟩
  | none =>
    exfalso
    obtain ⟨r, hr⟩ := startswith_ex path (pstr ("/")) h
    apply split_last_eq_none_aux '/' path hs
    rw [hr]
    exact List.mem_cons_self '/' r

/-- `splitparams` recovers a path/params split that was joined with `;`. -/
theorem splitparams_recover (path params : PyStr)
    (hsw : startswith path (pstr ("/")) = true)
    (hpar : ('/') ∉ params)
    (hseg : ∀ a b, split_last '/' path = some (a, b) → (';') ∉ b) :
    splitparams (path ++ ';' :: params) = (path, params) := by
  obtain ⟨a, b0, hab⟩ := split_last_of_startswith path hsw
  obtain ⟨heq, hfree⟩ := split_last_sound '/' path a b0 hab
  have hsl2 : split_last '/' (path ++ ';' :: params) = some (a, b0 ++ ';' :: params) := by
    rw [heq, List.append_assoc, List.cons_append]
    apply split_last_append
    intro hm
    rcases List.mem_append.mp hm with hm1 | hm1
    · exact hfree hm1
    · rcases List.mem_cons.mp hm1 with he | hm2
      · exact absurd he (by decide)
      · exact hpar hm2
  rw [splitparams]
  simp only [hsl2]
  rw [split_char_append ';' b0 params (hseg a b0 hab)]
  simp only
  rw [← heq]

/-- `splitparams` is the identity (with empty params) on a slash-headed path
whose last segment has no semicolon. -/
theorem splitparams_semi_self (path : PyStr)
    (hsw : startswith path (pstr ("/")) = true)
    (hseg : ∀ a b, split_last '/' path = some (a, b) → (';') ∉ b) :
    splitparams path = (path, []) := by
  obtain ⟨a, b0, hab⟩ := split_last_of_startswith path hsw
  obtain ⟨heq, _⟩ := split_last_sound '/' path a b0 hab
  rw [splitparams]
  simp only [hab]
  rw [(split_char_eq_none ';' b0).mpr (hseg a b0 hab)]

/-- Parsing a freshly unparsed URL recovers all five components. -/
theorem pyUrlparse_unparse (scheme netloc path params query : PyStr)
    (hvs : valid_scheme scheme = true)
    (hlow : lowerStr scheme = scheme)
    (hnet : netloc ≠ [])
    (hnetc : ∀ c ∈ netloc, ¬ (c = '/' ∨ c = '?' ∨ c = '#'))
    (hbr : ((netloc.contains '[' && !(netloc.contains ']')
        || (netloc.contains ']' && !(netloc.contains '['))) = false))
    (hpath : startswith path (pstr ("/")) = true)
    (hpathc : ∀ c ∈ path, c ≠ '?' ∧ c ≠ '#')
    (hparams : ∀ c ∈ params, c ≠ '?' ∧ c ≠ '#' ∧ c ≠ '/')
    (hseg : ∀ a b, split_last '/' path = some (a, b) → (';') ∉ b)
    (hquery : ∀ c ∈ query, c ≠ '#')
    (hkeep : ∀ c, c ∈ netloc ++ path ++ params ++ query → keep_char c = true) :
    pyUrlparse (pyUrlunparse scheme netloc path params query []) =
      some ⟨scheme, netloc, path, params, query, []⟩ := by
  rw [pyUrlunparse]
  by_cases hpe : params = []
  · rw [if_neg (show ¬ (params ≠ []) from fun h => h hpe)]
    rw [pyUrlparse, pyUrlsplit_unsplit scheme netloc path query hvs hlow hnet hnetc hbr
      hpath hpathc hquery ?hk]
    case hk =>
      intro c hc
      apply hkeep c
      rcases List.mem_append.mp hc with hm | hm
      · rcases List.mem_append.mp hm with hm2 | hm2
        · exact List.mem_append.mpr (Or.inl (List.mem_append.mpr
            (Or.inl (List.mem_append.mpr (Or.inl hm2)))))
        · exact List.mem_append.mpr (Or.inl (List.mem_append.mpr
            (Or.inl (List.mem_append.mpr (Or.inr hm2)))))
      · exact List.mem_append.mpr (Or.inr hm)
    simp only [Option.map_some']
    by_cases hsemi : path.contains ';' = true
    · rw [if_pos hsemi, splitparams_semi_self path hpath hseg, hpe]
    · rw [if_neg hsemi, hpe]
  · rw [if_pos (show params ≠ [] from hpe)]
    have hpps2 : startswith (path ++ ';' :: params) (pstr ("/")) = true := by
      obtain ⟨r, hr⟩ := startswith_ex path (pstr ("/")) hpath
      rw [hr, List.append_assoc]
      exact startswith_append (pstr ("/")) (r ++ ';' :: params)
    rw [pyUrlparse, pyUrlsplit_unsplit scheme netloc (path ++ ';' :: params) query
      hvs hlow hnet hnetc hbr hpps2 ?hc2 hquery ?hk2]
    case hc2 =>
      intro c hc
      rcases List.mem_append.mp hc with hm | hm
      · exact hpathc c hm
      · rcases List.mem_cons.mp hm with he | hm2
        · rw [he]
          exact ⟨by decide, by decide⟩
        · exact ⟨(hparams c hm2).1, (hparams c hm2).2.1⟩
    case hk2 =>
      intro c hc
      rcases List.mem_append.mp hc with hm | hm
      · rcases List.mem_append.mp hm with hm2 | hm2
        · exact hkeep c (List.mem_append.mpr (Or.inl (List.mem_append.mpr
            (Or.inl (List.mem_append.mpr (Or.inl hm2))))))
        · rcases List.mem_append.mp hm2 with hm3 | hm3
          · exact hkeep c (List.mem_append.mpr (Or.inl (List.mem_append.mpr
              (Or.inl (List.mem_append.mpr (Or.inr hm3))))))
          · rcases List.mem_cons.mp hm3 with he | hm4
            · rw [he]
              decide
            · exact hkeep c (List.mem_append.mpr (Or.inl
                (List.mem_append.mpr (Or.inr hm4))))
      · exact hkeep c (List.mem_append.mpr (Or.inr hm))
    simp only [Option.map_some']
    have hsemi : (path ++ ';' :: params).contains ';' = true :=
      (contains_iff _ ';').mpr (List.mem_append_right path (List.mem_cons_self ';' params))
    rw [if_pos hsemi, splitparams_recover path params hpath
      (fun hm => (hparams '/' hm).2.2 rfl) hseg]

/-- Equal membership gives equal `contains`. -/
theorem contains_eq_of_mem_iff (l1 l2 : PyStr) (c : Char) (h : c ∈ l1 ↔ c ∈ l2) :
    l1.contains c = l2.contains c := by
  rcases Bool.eq_false_or_eq_true (l2.contains c) with he | he
  · rw [he]
    exact (contains_iff l1 c).mpr (h.mpr ((contains_iff l2 c).mp he))
  · rw [he]
    rcases Bool.eq_false_or_eq_true (l1.contains c) with he2 | he2
    · rw [(contains_iff l2 c).mpr (h.mp ((contains_iff l1 c).mp he2))] at he
      cases he
    · exact he2

/-- Lower-casing preserves membership of characters that are neither upper-
nor lower-case letters. -/
theorem mem_lower_iff (n : PyStr) (d : Char)
    (hd1 : ¬ (65 ≤ d.toNat ∧ d.toNat ≤ 90)) (hd2 : ¬ (97 ≤ d.toNat ∧ d.toNat ≤ 122)) :
    d ∈ lowerStr n ↔ d ∈ n := by
  constructor
  · intro hm
    obtain ⟨c0, hc0, he⟩ := List.mem_map.mp hm
    rw [← toLower_eq_of_not_lower c0 d hd2 he]
    exact hc0
  · intro hm
    exact List.mem_map.mpr ⟨d, hm, toLower_of_not_upper d hd1⟩

/-- `norm_netloc` preserves membership of non-letter characters outside
`www.`. -/
theorem mem_norm_netloc_iff (n : PyStr) (d : Char)
    (hd1 : ¬ (65 ≤ d.toNat ∧ d.toNat ≤ 90)) (hd2 : ¬ (97 ≤ d.toNat ∧ d.toNat ≤ 122))
    (hdw : d ∉ pstr ("www.")) :
    d ∈ norm_netloc n ↔ d ∈ n := by
  rw [norm_netloc]
  by_cases hs : startswith (lowerStr n) (pstr ("www.")) = true
  · rw [if_pos hs]
    obtain ⟨r, hr⟩ := startswith_ex (lowerStr n) (pstr ("www.")) hs
    rw [hr]
    have hdrop : (pstr ("www.") ++ r).drop 4 = r := rfl
    rw [hdrop]
    constructor
    · intro hm
      exact (mem_lower_iff n d hd1 hd2).mp
        (hr ▸ List.mem_append.mpr (Or.inr hm))
    · intro hm
      have hm2 := (mem_lower_iff n d hd1 hd2).mpr hm
      rw [hr] at hm2
      rcases List.mem_append.mp hm2 with hm3 | hm3
      · exact absurd hm3 hdw
      · exact hm3
  · rw [if_neg hs]
    exact mem_lower_iff n d hd1 hd2

/-- The bracket balance check transfers from a netloc to its
normalization. -/
theorem norm_netloc_brackets (n : PyStr)
    (h : ((n.contains '[' && !(n.contains ']')
        || (n.contains ']' && !(n.contains '['))) = false)) :
    (((norm_netloc n).contains '[' && !((norm_netloc n).contains ']')
        || ((norm_netloc n).contains ']' && !((norm_netloc n).contains '['))) = false) := by
  have h1 : (norm_netloc n).contains '[' = n.contains '[' :=
    contains_eq_of_mem_iff _ n '['
      (mem_norm_netloc_iff n '[' (by decide) (by decide) (by decide))
  have h2 : (norm_netloc n).contains ']' = n.contains ']' :=
    contains_eq_of_mem_iff _ n ']'
      (mem_norm_netloc_iff n ']' (by decide) (by decide) (by decide))
  rw [h1, h2]
  exact h

/-- Delimiter-freeness transfers from a netloc to its normalization. -/
theorem norm_netloc_delims (n : PyStr)
    (h : ∀ c ∈ n, ¬ (c = '/' ∨ c = '?' ∨ c = '#')) :
    ∀ c ∈ norm_netloc n, ¬ (c = '/' ∨ c = '?' ∨ c = '#') := by
  intro c hc hcon
  have hm : c ∈ n := by
    rcases hcon with he | he | he
    · subst he
      exact (mem_norm_netloc_iff n '/' (by decide) (by decide) (by decide)).mp hc
    · subst he
      exact (mem_norm_netloc_iff n '?' (by decide) (by decide) (by decide)).mp hc
    · subst he
      exact (mem_norm_netloc_iff n '#' (by decide) (by decide) (by decide)).mp hc
  exact h c hm hcon

/-- Byte cleanliness transfers from a netloc to its normalization. -/
theorem norm_netloc_keep (n : PyStr) (h : ∀ c ∈ n, keep_char c = true) :
    ∀ c ∈ norm_netloc n, keep_char c = true := by
  intro c hc
  have hm : c ∈ lowerStr n := by
    rw [norm_netloc] at hc
    by_cases hs : startswith (lowerStr n) (pstr ("www.")) = true
    · rw [if_pos hs] at hc
      exact List.drop_subset 4 (lowerStr n) hc
    · rw [if_neg hs] at hc
      exact hc
  obtain ⟨c0, hc0, he⟩ := List.mem_map.mp hm
  rw [← he]
  exact toLower_keep c0 (h c0 hc0)

/-- A non-empty `urlencode` output. -/
theorem urlencode_ne_nil (l : List (PyStr × List PyStr)) (hl : l ≠ [])
    (hv : ∀ kv ∈ l, kv.2 ≠ []) : urlencode l ≠ [] := by
  cases l with
  | nil => exact absurd rfl hl
  | cons kv rest =>
    obtain ⟨v, vs, hkv⟩ : ∃ v vs, kv.2 = v :: vs := by
      cases h2 : kv.2 with
      | nil => exact absurd h2 (hv kv (List.mem_cons_self kv rest))
      | cons v vs => exact ⟨v, vs, rfl⟩
    rw [urlencode, List.foldr_cons, hkv, List.map_cons, List.cons_append]
    cases hrest : (vs.map (fun v => quote_plus kv.1 ++ '=' :: quote_plus v) ++
        rest.foldr (fun kv acc =>
          kv.2.map (fun v => quote_plus kv.1 ++ '=' :: quote_plus v) ++ acc) []) with
    | nil =>
      rw [join_amp]
      intro e
      rw [List.append_eq_nil] at e
      cases e.2
    | cons x xs =>
      rw [join_amp]
      intro e
      rw [List.append_eq_nil] at e
      cases e.2

/-- C9 amended (proved form): URL normalization is idempotent on every URL
whose normalized host is non-empty and does not still begin with `www.`
after one pass. Formally: if `u` parses to `p`, normalizing `u` yields `v`,
the normalized netloc is non-empty and does not start with `www.`, then
normalizing `v` returns `v` itself. -/
theorem normalize_url_idempotent (rt : Bool) (u v : PyStr) (p : UrlParseResult)
    (hu : pyUrlparse u = some p)
    (hn : normalize_url rt u = some v)
    (hne : norm_netloc p.netloc ≠ [])
    (hww : startswith (norm_netloc p.netloc) (pstr ("www.")) = false) :
    normalize_url rt v = some v := by
  obtain ⟨g1, g2, g3, g4, g5, g6, g7, g8, g9, g10, g11, g12, g13⟩ := pyUrlparse_sound u p hu
  rw [normalize_url] at hn
  by_cases hue : u = []
  · rw [if_pos hue] at hn
    cases hn
  rw [if_neg hue, hu] at hn
  simp only [] at hn
  by_cases hsn : p.scheme = [] ∨ p.netloc = []
  · rw [if_pos hsn] at hn
    cases hn
  rw [if_neg hsn] at hn
  obtain ⟨hs1, hs2⟩ := not_or.mp hsn
  obtain ⟨S, hSeq, hSvs, hSlow, hSne, hS2⟩ :
      ∃ S, (if p.scheme = pstr ("http") ∨ p.scheme = pstr ("https")
          then pstr ("https") else p.scheme) = S ∧
        valid_scheme S = true ∧ lowerStr S = S ∧ S ≠ [] ∧
        (if S = pstr ("http") ∨ S = pstr ("https") then pstr ("https") else S) = S := by
    by_cases hsch : p.scheme = pstr ("http") ∨ p.scheme = pstr ("https")
    · exact ⟨pstr ("https"), if_pos hsch, by decide, by decide, by decide,
        by rw [if_pos (Or.inr rfl)]⟩
    · rcases g1 with he | ⟨hval, hlo⟩
      · exact absurd he hs1
      · exact ⟨p.scheme, if_neg hsch, hval, hlo, hs1, if_neg hsch⟩
  obtain ⟨PATH, hPeq, hPs, hPc, hPseg, hPk, hP2⟩ :
      ∃ PATH, (if p.path = [] then pstr ("/") else p.path) = PATH ∧
        startswith PATH (pstr ("/")) = true ∧
        (∀ c ∈ PATH, c ≠ '?' ∧ c ≠ '#') ∧
        (∀ a b, split_last '/' PATH = some (a, b) → (';') ∉ b) ∧
        (∀ c ∈ PATH, keep_char c = true) ∧
        (if PATH = [] then pstr ("/") else PATH) = PATH := by
    by_cases hpb : p.path = []
    · refine ⟨pstr ("/"), if_pos hpb, by decide, by decide, ?_, by decide, ?_⟩
      · intro a b hab
        have hcomp : split_last '/' (pstr ("/")) = some ([], []) := rfl
        rw [hcomp] at hab
        simp only [Option.some.injEq, Prod.mk.injEq] at hab
        rw [← hab.2]
        intro hm
        cases hm
      · rw [if_neg (by decide)]
    · have hsw : startswith p.path (pstr ("/")) = true := by
        rcases g7 hs2 with he | he
        · exact absurd he hpb
        · exact he
      refine ⟨p.path, if_neg hpb, hsw, g4, g8, g11, if_neg hpb⟩
  obtain ⟨Q, hQeq, hQh, hQk, hQ2⟩ :
      ∃ Q, (if rt = true ∧ p.query ≠ [] then
          (if ((parse_qs p.query).filter
              (fun kv => !(TRACKING_PARAMS.contains (lowerStr kv.1)))) ≠ [] then
            urlencode ((parse_qs p.query).filter
              (fun kv => !(TRACKING_PARAMS.contains (lowerStr kv.1))))
          else []) else p.query) = Q ∧
        (∀ c ∈ Q, c ≠ '#') ∧ (∀ c ∈ Q, keep_char c = true) ∧
        (if rt = true ∧ Q ≠ [] then
          (if ((parse_qs Q).filter
              (fun kv => !(TRACKING_PARAMS.contains (lowerStr kv.1)))) ≠ [] then
            urlencode ((parse_qs Q).filter
              (fun kv => !(TRACKING_PARAMS.contains (lowerStr kv.1))))
          else []) else Q) = Q := by
    by_cases hqb : rt = true ∧ p.query ≠ []
    · by_cases hcl : ((parse_qs p.query).filter
          (fun kv => !(TRACKING_PARAMS.contains (lowerStr kv.1)))) ≠ []
      · have hinv := parse_qs_inv p.query
        have hdist2 : ((parse_qs p.query).filter
            (fun kv => !(TRACKING_PARAMS.contains (lowerStr kv.1)))).Pairwise
            (fun a b => a.1 ≠ b.1) :=
          List.Pairwise.sublist (List.filter_sublist _) hinv.1
        have hvals2 : ∀ kv ∈ (parse_qs p.query).filter
            (fun kv => !(TRACKING_PARAMS.contains (lowerStr kv.1))), kv.2 ≠ [] :=
          fun kv hkv => hinv.2 kv (List.mem_of_mem_filter hkv)
        have hpqs : parse_qs (urlencode ((parse_qs p.query).filter
            (fun kv => !(TRACKING_PARAMS.contains (lowerStr kv.1)))))
            = (parse_qs p.query).filter
              (fun kv => !(TRACKING_PARAMS.contains (lowerStr kv.1))) :=
          parse_qs_urlencode _ hdist2 hvals2
        have hfil : ((parse_qs p.query).filter
            (fun kv => !(TRACKING_PARAMS.contains (lowerStr kv.1)))).filter
            (fun kv => !(TRACKING_PARAMS.contains (lowerStr kv.1)))
            = (parse_qs p.query).filter
              (fun kv => !(TRACKING_PARAMS.contains (lowerStr kv.1))) :=
          List.filter_eq_self.mpr (fun kv hkv => (List.mem_filter.mp hkv).2)
        have hqne : urlencode ((parse_qs p.query).filter
            (fun kv => !(TRACKING_PARAMS.contains (lowerStr kv.1)))) ≠ [] :=
          urlencode_ne_nil _ hcl hvals2
        refine ⟨urlencode ((parse_qs p.query).filter
            (fun kv => !(TRACKING_PARAMS.contains (lowerStr kv.1)))),
          by rw [if_pos hqb, if_pos hcl], ?_, ?_, ?_⟩
        · exact fun c hc => (urlencode_chars _ c hc).1
        · exact fun c hc => (urlencode_chars _ c hc).2
        · rw [if_pos ⟨hqb.1, hqne⟩, hpqs, hfil, if_pos hcl]
      · refine ⟨[], by rw [if_pos hqb, if_neg hcl], ?_, ?_, ?_⟩
        · intro c hc
          cases hc
        · intro c hc
          cases hc
        · rw [if_neg (fun hcon => hcon.2 rfl)]
    · exact ⟨p.query, if_neg hqb, g6, g13, if_neg hqb⟩
  rw [hSeq, hPeq, hQeq] at hn
  have hv : v = pyUrlunparse S (norm_netloc p.netloc) PATH p.params Q [] :=
    ((Option.some.injEq _ _).mp hn).symm
  have hkeepAll : ∀ c, c ∈ norm_netloc p.netloc ++ PATH ++ p.params ++ Q →
      keep_char c = true := by
    intro c hc
    rcases List.mem_append.mp hc with hm | hm
    · rcases List.mem_append.mp hm with hm2 | hm2
      · rcases List.mem_append.mp hm2 with hm3 | hm3
        · exact norm_netloc_keep p.netloc g10 c hm3
        · exact hPk c hm3
      · exact g12 c hm2
    · exact hQk c hm
  have hparse_v : pyUrlparse v
      = some ⟨S, norm_netloc p.netloc, PATH, p.params, Q, []⟩ := by
    rw [hv]
    exact pyUrlparse_unparse S (norm_netloc p.netloc) PATH p.params Q hSvs hSlow hne
      (norm_netloc_delims p.netloc g2) (norm_netloc_brackets p.netloc g3) hPs hPc g5
      hPseg hQh hkeepAll
  have hvne : v ≠ [] := by
    intro he
    rw [he] at hparse_v
    have hnilp : pyUrlparse [] = some ⟨[], [], [], [], [], []⟩ := by decide
    rw [hnilp] at hparse_v
    simp only [Option.some.injEq] at hparse_v
    exact hne (congrArg UrlParseResult.netloc hparse_v).symm
  rw [normalize_url, if_neg hvne, hparse_v]
  simp only []
  rw [if_neg (show ¬ (S = [] ∨ norm_netloc p.netloc = []) from
    fun hcon => hcon.elim hSne hne)]
  rw [hS2, hP2, hQ2, norm_netloc_idem p.netloc hww, hv]

/-- C9 amended witness: the hypotheses of `normalize_url_idempotent` hold
concretely for `https://example.com/a?x=1&y=2` (which normalizes to itself),
and the theorem applies. -/
theorem normalize_url_idempotent_witness :
    pyUrlparse (pstr ("https://example.com/a?x=1&y=2"))
        = some ⟨pstr ("https"), pstr ("example.com"), pstr ("/a"), [],
            pstr ("x=1&y=2"), []⟩ ∧
    normalize_url true (pstr ("https://example.com/a?x=1&y=2"))
        = some (pstr ("https://example.com/a?x=1&y=2")) ∧
    norm_netloc (pstr ("example.com")) ≠ [] ∧
    startswith (norm_netloc (pstr ("example.com"))) (pstr ("www.")) = false ∧
    normalize_url true (pstr ("https://example.com/a?x=1&y=2"))
        = some (pstr ("https://example.com/a?x=1&y=2")) :=
  ⟨by decide, by decide, by decide, by decide,
    normalize_url_idempotent true (pstr ("https://example.com/a?x=1&y=2"))
      (pstr ("https://example.com/a?x=1&y=2"))
      ⟨pstr ("https"), pstr ("example.com"), pstr ("/a"), [], pstr ("x=1&y=2"), []⟩
      (by decide) (by decide) (by decide) (by decide)⟩

end TNF
